import Mathlib

/-!
Verification of the flex-box space-distribution algorithm
(`distributeFlexBoxLayout` in
`src/vs/editor/contrib/inlineCompletions/browser/view/inlineEdits/inlineEditsViews/flexBoxLayout.ts`).

JavaScript numbers are modelled as rationals (`ℚ`); the value `Infinity`,
which only arises as the default `max`, is modelled by the type `QInf`.
The in-place mutation of the flat part array is modelled by explicit state
passing; the `while` loop with its iteration cap is modelled by a fuel-indexed
recursion whose fuel is exactly the source's `maxIterations` cap.
-/

set_option maxRecDepth 100000

namespace FlexBox

/-- A rational extended with a single point at positive infinity, modelling
the JavaScript `number` values that can appear as a part's `max`
(`Infinity` being the default when `max` is absent). -/
inductive QInf where
  | fin (q : ℚ)
  | inf
deriving DecidableEq

/-- Addition on `QInf`, mirroring JavaScript `+` on the relevant values:
`Infinity + x = Infinity` for every finite `x`. -/
def QInf.add : QInf → QInf → QInf
  | .fin a, .fin b => .fin (a + b)
  | _, _ => .inf

/-- The JavaScript comparison `m < b` for `m : QInf` and finite `b`:
`Infinity < b` is false. -/
def QInf.ltFin : QInf → ℚ → Bool
  | .fin a, b => decide (a < b)
  | .inf, _ => false

/-- The JavaScript comparison `a < m` for finite `a` and `m : QInf`:
`a < Infinity` is true. -/
def QInf.finLt (a : ℚ) : QInf → Bool
  | .fin b => decide (a < b)
  | .inf => true

/-- The JavaScript comparison `a <= m` for finite `a` and `m : QInf`. -/
def QInf.finLe (a : ℚ) : QInf → Bool
  | .fin b => decide (a ≤ b)
  | .inf => true

/-- Subtraction `m - a` for `m : QInf` and finite `a`
(the source's `part.max - part.allocatedSize`). -/
def QInf.sub : QInf → ℚ → QInf
  | .fin m, a => .fin (m - a)
  | .inf, _ => .inf

/-- `Math.min(d, h)` where `d` is finite and `h` may be `Infinity`. -/
def QInf.minFin (d : ℚ) : QInf → ℚ
  | .fin h => min d h
  | .inf => d

/-- The source interface `IFlexBoxPart`: every field optional. -/
structure IFlexBoxPart where
  width : Option ℚ := none
  min : Option ℚ := none
  max : Option ℚ := none
  priority : Option ℚ := none
  share : Option ℚ := none
deriving DecidableEq

/-- One named slot of the input record: either a single part or an ordered
array of parts (the source's `IFlexBoxPart | IFlexBoxPart[]`). -/
inductive FlexEntry where
  | single (p : IFlexBoxPart)
  | many (ps : List IFlexBoxPart)
deriving DecidableEq

/-- The source's local `FlatPart` record (key, optional array index,
defaulted bounds, and the mutable `allocatedSize` accumulator). -/
structure FlatPart where
  key : String
  index : Option Nat
  min : ℚ
  max : QInf
  priority : ℚ
  share : ℚ
  allocatedSize : ℚ
deriving DecidableEq

/-- The source's `part.max ?? Infinity`. -/
def partMax (p : IFlexBoxPart) : QInf :=
  match p.max with
  | some q => .fin q
  | none => .inf

/-- Flattening of one named entry, with the source's defaults
`min ?? 0`, `max ?? Infinity`, `priority ?? 0`, `share ?? 1`,
`allocatedSize = 0`. -/
def flattenEntry (key : String) : FlexEntry → List FlatPart
  | .single p =>
      [{ key := key, index := none, min := p.min.getD 0, max := partMax p,
         priority := p.priority.getD 0, share := p.share.getD 1, allocatedSize := 0 }]
  | .many ps =>
      ps.enum.map (fun ip =>
        { key := key, index := some ip.1, min := ip.2.min.getD 0, max := partMax ip.2,
          priority := ip.2.priority.getD 0, share := ip.2.share.getD 1, allocatedSize := 0 })

/-- The source's flattening loop over the input record (record iteration
order is modelled by list order). -/
def flattenParts (parts : List (String × FlexEntry)) : List FlatPart :=
  parts.flatMap (fun ke => flattenEntry ke.1 ke.2)

/-- `flatParts.reduce((sum, p) => sum + p.min, 0)`. -/
def totalMinOf (fps : List FlatPart) : ℚ :=
  (fps.map (fun p => p.min)).sum

/-- `flatParts.reduce((sum, p) => sum + p.max, 0)`; any unbounded `max`
makes the total infinite. -/
def totalMaxOf (fps : List FlatPart) : QInf :=
  fps.foldl (fun s p => s.add p.max) (.fin 0)

/-- The source's `part.allocatedSize < part.max` test. -/
def isActive (p : FlatPart) : Bool :=
  QInf.finLt p.allocatedSize p.max

/-- Active share of the tier at priority `pr`: the sum of `share` over parts
at that priority that have not reached their `max`. -/
def activeShareAt (pr : ℚ) (ps : List FlatPart) : ℚ :=
  ((ps.filter (fun p => decide (p.priority = pr) && isActive p)).map (fun p => p.share)).sum

/-- The source's per-part increase for one round:
`min(spaceToDistribute * (share / activeShare), max - allocatedSize)`. -/
def incOf (space A : ℚ) (p : FlatPart) : ℚ :=
  QInf.minFin (space * (p.share / A)) (p.max.sub p.allocatedSize)

/-- The update applied to one part in a round: parts of other priorities and
saturated parts (`allocatedSize >= max`, the source's `continue`) are left
unchanged. -/
def stepOne (pr space A : ℚ) (p : FlatPart) : FlatPart :=
  if p.priority = pr ∧ isActive p then
    { p with allocatedSize := p.allocatedSize + incOf space A p }
  else p

/-- One distribution round: the source's inner `for` loop over
`partsAtPriority`, returning the updated parts and `distributedThisRound`.
Each part's increase is computed from the round's entering
`spaceToDistribute` and `activeShare` only, so the sequential source loop
is equivalent to a simultaneous update. -/
def distributeRound (pr space A : ℚ) : List FlatPart → List FlatPart × ℚ
  | [] => ([], 0)
  | p :: rest =>
    let r := distributeRound pr space A rest
    if p.priority = pr ∧ isActive p then
      ({ p with allocatedSize := p.allocatedSize + incOf space A p } :: r.1,
        incOf space A p + r.2)
    else (p :: r.1, r.2)

/-- The source's fixed tolerance `0.001`. -/
def eps : ℚ := 1 / 1000

/-- The source's `while (spaceToDistribute > 0.001 && iterationCount < maxIterations)`
loop for one tier; the fuel argument is the remaining iteration budget
(initially `maxIterations = partsAtPriority.length * 2`). Returns the updated
parts and the final `spaceToDistribute`. -/
def tierLoop (pr : ℚ) : Nat → ℚ → List FlatPart → List FlatPart × ℚ
  | 0, space, ps => (ps, space)
  | fuel + 1, space, ps =>
    if eps < space then
      let A := activeShareAt pr ps
      if A = 0 then (ps, space)
      else
        let r := distributeRound pr space A ps
        if r.2 < eps then (r.1, space - r.2)
        else tierLoop pr fuel (space - r.2) r.1
    else (ps, space)

/-- The source's outer loop over priorities: stop when `remainingSize <= 0`,
skip a tier whose total share is `0`, otherwise run the tier loop with the
iteration cap `partsAtPriority.length * 2` and carry the leftover budget to
the next tier. -/
def distributeLoop : List ℚ → ℚ → List FlatPart → List FlatPart × ℚ
  | [], rem, ps => (ps, rem)
  | pr :: rest, rem, ps =>
    if rem ≤ 0 then (ps, rem)
    else
      let tierParts := ps.filter (fun p => decide (p.priority = pr))
      if (tierParts.map (fun p => p.share)).sum = 0 then distributeLoop rest rem ps
      else
        let r := tierLoop pr (2 * tierParts.length) rem ps
        distributeLoop rest r.2 r.1

/-- Descending insertion used to model `.sort((a, b) => b - a)` on the
distinct priorities. -/
def insertDesc (x : ℚ) : List ℚ → List ℚ
  | [] => [x]
  | y :: ys => if y ≤ x then x :: y :: ys else y :: insertDesc x ys

/-- Sort a list of rationals in descending order. -/
def sortDesc (l : List ℚ) : List ℚ :=
  l.foldr insertDesc []

/-- `Array.from(new Set(flatParts.map(p => p.priority))).sort((a, b) => b - a)`:
the distinct priorities in descending order. -/
def prioritiesOf (fps : List FlatPart) : List ℚ :=
  sortDesc (fps.map (fun p => p.priority)).dedup

/-- The minimum-allocation pass: `part.allocatedSize = part.min`. -/
def minAllocated (fps : List FlatPart) : List FlatPart :=
  fps.map (fun p => { p with allocatedSize := p.min })

/-- The flat working list right after minimum allocation. -/
def initialParts (parts : List (String × FlexEntry)) : List FlatPart :=
  minAllocated (flattenParts parts)

/-- `remainingSize = totalSize - totalMin` right after minimum allocation. -/
def initialRemaining (totalSize : ℚ) (parts : List (String × FlexEntry)) : ℚ :=
  totalSize - totalMinOf (flattenParts parts)

/-- The flat working list and the remaining budget when the priority loop
has finished. -/
def finalState (totalSize : ℚ) (parts : List (String × FlexEntry)) :
    List FlatPart × ℚ :=
  distributeLoop (prioritiesOf (flattenParts parts))
    (initialRemaining totalSize parts) (initialParts parts)

/-- The source's result-building loop: for an array entry, the sum of its
members' allocations (`filter` by key); for a single entry, the allocation of
the flat part with that key and no index (`find`; the part always exists, the
`0` default models the source's non-null assertion). -/
def buildResult (parts : List (String × FlexEntry)) (fps : List FlatPart) :
    List (String × ℚ) :=
  parts.map (fun ke =>
    match ke.2 with
    | .many _ =>
        (ke.1, ((fps.filter (fun p => decide (p.key = ke.1))).map
          (fun p => p.allocatedSize)).sum)
    | .single _ =>
        (ke.1, (fps.find? (fun p => decide (p.key = ke.1) && decide (p.index = none))).elim
          0 (fun p => p.allocatedSize)))

/-- The full `distributeFlexBoxLayout` function: `null` (here `none`) exactly
when `totalMin > totalSize` or `totalMax < totalSize`; otherwise minimum
allocation, the tiered distribution loop, and aggregation. -/
def distributeFlexBoxLayout (totalSize : ℚ) (parts : List (String × FlexEntry)) :
    Option (List (String × ℚ)) :=
  let fps := flattenParts parts
  if totalSize < totalMinOf fps then none
  else if QInf.ltFin (totalMaxOf fps) totalSize then none
  else some (buildResult parts (finalState totalSize parts).1)

/-- The contribution of one part to `distributedThisRound`: its increase if it
is an unsaturated part of the current tier, `0` otherwise. -/
def incContrib (pr space A : ℚ) (p : FlatPart) : ℚ :=
  if p.priority = pr ∧ isActive p then incOf space A p else 0

/-- Two flat parts agree on everything except possibly `allocatedSize`. -/
def sameSpec (a b : FlatPart) : Prop :=
  a.key = b.key ∧ a.index = b.index ∧ a.min = b.min ∧ a.max = b.max ∧
    a.priority = b.priority ∧ a.share = b.share

/-- How a flat part can evolve across any number of distribution steps:
its spec fields never change, a zero-share part's allocation never changes,
and an allocation within its `max` stays within its `max`. -/
def EvolPart (a b : FlatPart) : Prop :=
  sameSpec a b ∧ (a.share = 0 → b.allocatedSize = a.allocatedSize) ∧
    (QInf.finLe a.allocatedSize a.max = true → QInf.finLe b.allocatedSize b.max = true)

/-- Evolution within the tier at priority `pr`: additionally, parts of other
priorities are untouched. -/
def EvolAt (pr : ℚ) (a b : FlatPart) : Prop :=
  EvolPart a b ∧ (a.priority ≠ pr → b = a)

/-- Sum of the current allocations of a flat part list. -/
def allocSum (ps : List FlatPart) : ℚ :=
  (ps.map (fun p => p.allocatedSize)).sum

/-- Whether the tier loop at priority `pr` ends abnormally: a round
distributes less than `eps` while more than `eps` of budget remains
(the source's `distributedThisRound < 0.001` break), or the iteration cap is
reached with more than `eps` of budget and a nonzero active share left. -/
def tierBroke (pr : ℚ) : Nat → ℚ → List FlatPart → Bool
  | 0, space, ps => decide (eps < space) && !(decide (activeShareAt pr ps = 0))
  | fuel + 1, space, ps =>
    if eps < space then
      let A := activeShareAt pr ps
      if A = 0 then false
      else
        let r := distributeRound pr space A ps
        if r.2 < eps then true
        else tierBroke pr fuel (space - r.2) r.1
    else false

/-- Whether any tier processed by the priority loop ends abnormally
(in the sense of `tierBroke`). -/
def anyTierBroke : List ℚ → ℚ → List FlatPart → Bool
  | [], _, _ => false
  | pr :: rest, rem, ps =>
    if rem ≤ 0 then false
    else
      let tierParts := ps.filter (fun p => decide (p.priority = pr))
      if (tierParts.map (fun p => p.share)).sum = 0 then anyTierBroke rest rem ps
      else
        let r := tierLoop pr (2 * tierParts.length) rem ps
        tierBroke pr (2 * tierParts.length) rem ps || anyTierBroke rest r.2 r.1

/-- Erase the `width` field of a part (the one field the algorithm never
reads). -/
def eraseWidthPart (p : IFlexBoxPart) : IFlexBoxPart :=
  { p with width := none }

/-- Erase the `width` fields throughout an entry. -/
def eraseWidthEntry : FlexEntry → FlexEntry
  | .single p => .single (eraseWidthPart p)
  | .many ps => .many (ps.map eraseWidthPart)

/-- Erase the `width` fields throughout an input record. -/
def eraseWidth (parts : List (String × FlexEntry)) : List (String × FlexEntry) :=
  parts.map (fun ke => (ke.1, eraseWidthEntry ke.2))

/-- Two flat parts agree on the four spec fields that drive distribution and
on their current allocation (keys may differ). -/
def TwinPart (a b : FlatPart) : Prop :=
  a.min = b.min ∧ a.max = b.max ∧ a.priority = b.priority ∧ a.share = b.share ∧
    a.allocatedSize = b.allocatedSize

/-- The input of the example `layout` constant at the top of the source file. -/
def exampleParts : List (String × FlexEntry) :=
  [("spaceBefore", .single { min := some 10, max := some 100, priority := some 2, share := some 1 }),
   ("content", .many [{ min := some 50, max := some 100, priority := some 2, share := some 2 },
                      { min := some 100, max := some 500, priority := some 1 }]),
   ("spaceAfter", .single {})]

/-- The source file's top-level `layout` constant. -/
def layout : Option (List (String × ℚ)) :=
  distributeFlexBoxLayout 1000 exampleParts

/-! Basic lemmas about the evolution relations. -/

theorem sameSpec_refl (a : FlatPart) : sameSpec a a :=
  ⟨rfl, rfl, rfl, rfl, rfl, rfl⟩

theorem sameSpec_trans {a b c : FlatPart} (h1 : sameSpec a b) (h2 : sameSpec b c) :
    sameSpec a c := by
  obtain ⟨k1, i1, m1, x1, p1, s1⟩ := h1
  obtain ⟨k2, i2, m2, x2, p2, s2⟩ := h2
  exact ⟨k1.trans k2, i1.trans i2, m1.trans m2, x1.trans x2, p1.trans p2, s1.trans s2⟩

theorem evolPart_refl (a : FlatPart) : EvolPart a a :=
  ⟨sameSpec_refl a, fun _ => rfl, fun h => h⟩

theorem evolPart_trans {a b c : FlatPart} (h1 : EvolPart a b) (h2 : EvolPart b c) :
    EvolPart a c := by
  obtain ⟨s1, z1, f1⟩ := h1
  obtain ⟨s2, z2, f2⟩ := h2
  refine ⟨sameSpec_trans s1 s2, fun hz => ?_, fun hf => ?_⟩
  · rw [z2 (s1.2.2.2.2.2 ▸ hz), z1 hz]
  · exact f2 (f1 hf)

theorem evolAt_refl (pr : ℚ) (a : FlatPart) : EvolAt pr a a :=
  ⟨evolPart_refl a, fun _ => rfl⟩

theorem evolAt_trans {pr : ℚ} {a b c : FlatPart} (h1 : EvolAt pr a b) (h2 : EvolAt pr b c) :
    EvolAt pr a c := by
  refine ⟨evolPart_trans h1.1 h2.1, fun hp => ?_⟩
  have hb := h1.2 hp
  have hc := h2.2 (by rw [hb]; exact hp)
  rw [hc, hb]

theorem forall2Trans {α : Type} (R : α → α → Prop)
    (hR : ∀ a b c, R a b → R b c → R a c) :
    ∀ {l1 l2 l3 : List α}, List.Forall₂ R l1 l2 → List.Forall₂ R l2 l3 →
      List.Forall₂ R l1 l3 := by
  intro l1 l2 l3 h12
  induction h12 generalizing l3 with
  | nil => intro h23; cases h23; exact .nil
  | cons h _ ih =>
    intro h23
    cases h23 with
    | cons h2 t2 => exact .cons (hR _ _ _ h h2) (ih t2)

theorem forall2Refl {α : Type} (R : α → α → Prop) (hR : ∀ a, R a a) (l : List α) :
    List.Forall₂ R l l :=
  List.forall₂_same.2 (fun a _ => hR a)

/-! The round as a simultaneous pointwise update. -/

theorem distributeRound_eq (pr s A : ℚ) (ps : List FlatPart) :
    distributeRound pr s A ps =
      (ps.map (stepOne pr s A), (ps.map (incContrib pr s A)).sum) := by
  induction ps with
  | nil => rfl
  | cons p rest ih =>
    simp only [distributeRound, ih, List.map_cons, List.sum_cons, stepOne, incContrib]
    by_cases h : p.priority = pr ∧ isActive p
    · simp [h]
    · simp [h]

theorem incOf_zero_share {s A : ℚ} {p : FlatPart} (hz : p.share = 0)
    (hact : isActive p = true) : incOf s A p = 0 := by
  unfold incOf
  rw [hz, zero_div, mul_zero]
  unfold isActive at hact
  cases hmax : p.max with
  | fin m =>
      rw [hmax] at hact
      simp only [QInf.finLt, decide_eq_true_eq] at hact
      simp only [QInf.sub, QInf.minFin]
      exact min_eq_left (by linarith)
  | inf => rfl

theorem stepOne_finLe (s A : ℚ) (p : FlatPart) :
    QInf.finLe (p.allocatedSize + incOf s A p) p.max = true := by
  cases hmax : p.max with
  | fin m =>
      unfold incOf
      rw [hmax]
      simp only [QInf.sub, QInf.minFin, QInf.finLe, decide_eq_true_eq]
      have := min_le_right (s * (p.share / A)) (m - p.allocatedSize)
      linarith
  | inf => rfl

theorem stepOne_evolAt (pr s A : ℚ) (p : FlatPart) : EvolAt pr p (stepOne pr s A p) := by
  unfold stepOne
  by_cases h : p.priority = pr ∧ isActive p
  · rw [if_pos h]
    refine ⟨⟨⟨rfl, rfl, rfl, rfl, rfl, rfl⟩, fun hz => ?_, fun _ => ?_⟩, fun hp => ?_⟩
    · simp [incOf_zero_share hz h.2]
    · exact stepOne_finLe s A p
    · exact absurd h.1 hp
  · rw [if_neg h]
    exact evolAt_refl pr p

theorem map_stepOne_evolAt (pr s A : ℚ) (ps : List FlatPart) :
    List.Forall₂ (EvolAt pr) ps (ps.map (stepOne pr s A)) :=
  List.forall₂_map_right_iff.2 (List.forall₂_same.2 fun p _ => stepOne_evolAt pr s A p)

theorem tierLoop_evolAt (pr : ℚ) : ∀ (fuel : Nat) (s : ℚ) (ps : List FlatPart),
    List.Forall₂ (EvolAt pr) ps (tierLoop pr fuel s ps).1 := by
  intro fuel
  induction fuel with
  | zero => intro s ps; exact forall2Refl (EvolAt pr) (evolAt_refl pr) ps
  | succ n ih =>
    intro s ps
    simp only [tierLoop, distributeRound_eq]
    split
    · split
      · exact forall2Refl (EvolAt pr) (evolAt_refl pr) ps
      · split
        · exact map_stepOne_evolAt pr s _ ps
        · exact forall2Trans (EvolAt pr) (fun _ _ _ h1 h2 => evolAt_trans h1 h2)
            (map_stepOne_evolAt pr s _ ps) (ih _ _)
    · exact forall2Refl (EvolAt pr) (evolAt_refl pr) ps

theorem distributeLoop_evolPart : ∀ (qs : List ℚ) (rem : ℚ) (ps : List FlatPart),
    List.Forall₂ EvolPart ps (distributeLoop qs rem ps).1 := by
  intro qs
  induction qs with
  | nil => intro rem ps; exact forall2Refl EvolPart evolPart_refl ps
  | cons pr rest ih =>
    intro rem ps
    simp only [distributeLoop]
    split
    · exact forall2Refl EvolPart evolPart_refl ps
    · split
      · exact ih rem ps
      · exact forall2Trans EvolPart (fun _ _ _ h1 h2 => evolPart_trans h1 h2)
          ((tierLoop_evolAt pr _ rem ps).imp (fun _ _ h => h.1)) (ih _ _)

/-! Conservation: allocated total plus remaining budget is invariant. -/

theorem allocSum_map_stepOne (pr s A : ℚ) (ps : List FlatPart) :
    allocSum (ps.map (stepOne pr s A)) = allocSum ps + (ps.map (incContrib pr s A)).sum := by
  induction ps with
  | nil => simp [allocSum]
  | cons p rest ih =>
    simp only [allocSum, List.map_cons, List.sum_cons] at ih ⊢
    rw [ih]
    by_cases h : p.priority = pr ∧ isActive p
    · simp only [stepOne, incContrib, if_pos h]
      ring
    · simp only [stepOne, incContrib, if_neg h]
      ring

theorem tierLoop_sum (pr : ℚ) : ∀ (fuel : Nat) (s : ℚ) (ps : List FlatPart),
    allocSum (tierLoop pr fuel s ps).1 + (tierLoop pr fuel s ps).2 = allocSum ps + s := by
  intro fuel
  induction fuel with
  | zero => intro s ps; rfl
  | succ n ih =>
    intro s ps
    simp only [tierLoop, distributeRound_eq]
    split
    · split
      · rfl
      · split
        · simp only
          rw [allocSum_map_stepOne]
          ring
        · rw [ih, allocSum_map_stepOne]
          ring
    · rfl

theorem distributeLoop_sum : ∀ (qs : List ℚ) (rem : ℚ) (ps : List FlatPart),
    allocSum (distributeLoop qs rem ps).1 + (distributeLoop qs rem ps).2 =
      allocSum ps + rem := by
  intro qs
  induction qs with
  | nil => intro rem ps; rfl
  | cons pr rest ih =>
    intro rem ps
    simp only [distributeLoop]
    split
    · rfl
    · split
      · exact ih rem ps
      · rw [ih]
        have := tierLoop_sum pr (2 * (ps.filter (fun p => decide (p.priority = pr))).length) rem ps
        linarith

/-! The descending sort of the distinct priorities. -/

theorem insertDesc_perm (x : ℚ) : ∀ l : List ℚ, (insertDesc x l).Perm (x :: l) := by
  intro l
  induction l with
  | nil => exact List.Perm.refl _
  | cons y ys ih =>
    unfold insertDesc
    by_cases h : y ≤ x
    · rw [if_pos h]
    · rw [if_neg h]
      exact (ih.cons y).trans (List.Perm.swap x y ys)

theorem sortDesc_perm : ∀ l : List ℚ, (sortDesc l).Perm l := by
  intro l
  induction l with
  | nil => exact List.Perm.refl _
  | cons x xs ih =>
    exact (insertDesc_perm x (sortDesc xs)).trans (ih.cons x)

theorem insertDesc_pairwise (x : ℚ) : ∀ l : List ℚ, l.Pairwise (· ≥ ·) →
    (insertDesc x l).Pairwise (· ≥ ·) := by
  intro l
  induction l with
  | nil => intro _; simp [insertDesc]
  | cons y ys ih =>
    intro h
    rw [List.pairwise_cons] at h
    unfold insertDesc
    by_cases hyx : y ≤ x
    · rw [if_pos hyx]
      refine List.pairwise_cons.2 ⟨?_, List.pairwise_cons.2 ⟨h.1, h.2⟩⟩
      intro z hz
      rcases List.mem_cons.1 hz with hz | hz
      · rw [hz]; exact hyx
      · exact le_trans (h.1 z hz) hyx
    · rw [if_neg hyx]
      refine List.pairwise_cons.2 ⟨?_, ih h.2⟩
      intro z hz
      rcases List.mem_cons.1 ((insertDesc_perm x ys).mem_iff.1 hz) with hz | hz
      · rw [hz]; exact le_of_not_le hyx
      · exact h.1 z hz

theorem sortDesc_pairwise : ∀ l : List ℚ, (sortDesc l).Pairwise (· ≥ ·) := by
  intro l
  induction l with
  | nil => exact List.Pairwise.nil
  | cons x xs ih => exact insertDesc_pairwise x (sortDesc xs) ih

theorem prioritiesOf_mem {fps : List FlatPart} {q : ℚ} :
    q ∈ prioritiesOf fps ↔ q ∈ fps.map (fun p => p.priority) := by
  unfold prioritiesOf
  rw [(sortDesc_perm _).mem_iff, List.mem_dedup]

theorem prioritiesOf_pairwise (fps : List FlatPart) :
    (prioritiesOf fps).Pairwise (· > ·) := by
  unfold prioritiesOf
  have hnd : ((fps.map (fun p => p.priority)).dedup).Nodup := List.nodup_dedup _
  have hnd2 : (sortDesc ((fps.map (fun p => p.priority)).dedup)).Nodup :=
    (sortDesc_perm _).nodup_iff.2 hnd
  have hpw := sortDesc_pairwise ((fps.map (fun p => p.priority)).dedup)
  exact (hpw.and hnd2).imp (fun h => lt_of_le_of_ne h.1 (Ne.symm h.2))

theorem forall2Comp {α : Type} (R S T : α → α → Prop)
    (h : ∀ a b c, R a b → S b c → T a c) :
    ∀ {l1 l2 l3 : List α}, List.Forall₂ R l1 l2 → List.Forall₂ S l2 l3 →
      List.Forall₂ T l1 l3 := by
  intro l1 l2 l3 h12
  induction h12 generalizing l3 with
  | nil => intro h23; cases h23; exact .nil
  | cons hab _ ih =>
    intro h23
    cases h23 with
    | cons hbc t2 => exact .cons (h _ _ _ hab hbc) (ih t2)

theorem ltFin_iff (x : QInf) (t : ℚ) :
    QInf.ltFin x t = true ↔ ∃ m : ℚ, x = QInf.fin m ∧ m < t := by
  cases x with
  | fin a => simp [QInf.ltFin]
  | inf => simp [QInf.ltFin]

/-- C2: `distributeFlexBoxLayout` returns the infeasible signal `none` if and
only if the sum of the minimums exceeds `totalSize` or the sum of the maximums
(which is only finite when every region's `max` is bounded) is less than
`totalSize`; in the infeasible case nothing but the bare signal is returned. -/
theorem distribute_none_iff (t : ℚ) (parts : List (String × FlexEntry)) :
    distributeFlexBoxLayout t parts = none ↔
      (totalMinOf (flattenParts parts) > t ∨
        ∃ m : ℚ, totalMaxOf (flattenParts parts) = QInf.fin m ∧ m < t) := by
  rw [← ltFin_iff (totalMaxOf (flattenParts parts)) t]
  simp only [distributeFlexBoxLayout]
  by_cases h1 : t < totalMinOf (flattenParts parts)
  · simp [h1, gt_iff_lt]
  · by_cases h2 : QInf.ltFin (totalMaxOf (flattenParts parts)) t = true
    · simp [h1, h2, gt_iff_lt]
    · simp [h1, h2, gt_iff_lt]

/-- C7: a region with `share = 0` never receives any growth; whatever the
total size and the other regions are, its final allocated size equals its
minimum. -/
theorem zero_share_stays_min (t : ℚ) (parts : List (String × FlexEntry)) :
    List.Forall₂ (fun a b => a.share = 0 → b.allocatedSize = a.min)
      (flattenParts parts) (finalState t parts).1 := by
  have h1 : List.Forall₂ (fun a b => a.share = b.share ∧ b.allocatedSize = a.min)
      (flattenParts parts) (initialParts parts) := by
    unfold initialParts minAllocated
    exact List.forall₂_map_right_iff.2
      (List.forall₂_same.2 fun p _ => ⟨rfl, rfl⟩)
  have h2 := distributeLoop_evolPart (prioritiesOf (flattenParts parts))
    (initialRemaining t parts) (initialParts parts)
  exact forall2Comp _ _ _
    (fun a b c hab hbc hz => by
      rw [hbc.2.1 (hab.1 ▸ hz), hab.2]) h1 h2

/-- C8: the source's example call distributes 1000 into
`spaceBefore = 100`, `content = 600` (the sum of the two array members) and
`spaceAfter = 300`, and the all-defaults call splits 100 as `a = b = 50`. -/
theorem example_layouts :
    layout = some [("spaceBefore", 100), ("content", 600), ("spaceAfter", 300)] ∧
    distributeFlexBoxLayout 100 [("a", .single {}), ("b", .single {})] =
      some [("a", 50), ("b", 50)] := by
  constructor
  · with_unfolding_all decide
  · with_unfolding_all decide

/-- C5 (amended): the tolerance governing both loop checks is the fixed
absolute constant `0.001`; in particular a tier entered with budget at most
`0.001` distributes nothing, whatever the magnitude of the total size. -/
theorem eps_fixed_absolute (pr : ℚ) (fuel : Nat) (s : ℚ) (ps : List FlatPart)
    (h : s ≤ eps) : tierLoop pr fuel s ps = (ps, s) ∧ eps = 1 / 1000 := by
  refine ⟨?_, rfl⟩
  cases fuel with
  | zero => rfl
  | succ n => rw [tierLoop, if_neg (not_lt.2 h)]

/-- Witness for `eps_fixed_absolute` at a concrete state. -/
theorem eps_fixed_absolute_witness :
    (1 / 2000 : ℚ) ≤ eps ∧
      (tierLoop 0 5 (1 / 2000) [] = ([], 1 / 2000) ∧ eps = 1 / 1000) :=
  ⟨by norm_num [eps], eps_fixed_absolute 0 5 (1 / 2000) [] (by norm_num [eps])⟩

/-- C5 counterexample: the tolerance does not scale with `totalSize`. The
same all-defaults single-region input fully distributes a budget of `500`
but distributes nothing at all out of a budget of `1/2000`, because the
cut-off `0.001` is absolute, not relative to `totalSize`. -/
theorem eps_not_scaled_cex :
    distributeFlexBoxLayout (1 / 2000) [("a", .single {})] = some [("a", 0)] ∧
    distributeFlexBoxLayout 500 [("a", .single {})] = some [("a", 500)] := by
  constructor
  · with_unfolding_all decide
  · with_unfolding_all decide

/-- C1 counterexample: a feasible input (total minimum `0 ≤ 5`, total maximum
infinite) whose returned values sum to `0`, falling short of `totalSize = 5`
by far more than the tolerance: a single region with `share = 0` never grows,
yet the input is feasible. -/
theorem feasible_sum_shortfall_cex :
    totalMinOf (flattenParts [("a", FlexEntry.single { share := some 0 })]) ≤ 5 ∧
    totalMaxOf (flattenParts [("a", FlexEntry.single { share := some 0 })]) = QInf.inf ∧
    distributeFlexBoxLayout 5 [("a", FlexEntry.single { share := some 0 })] =
      some [("a", 0)] ∧
    ¬((5 : ℚ) - 0 ≤ eps) := by
  refine ⟨?_, ?_, ?_, ?_⟩
  · with_unfolding_all decide
  · with_unfolding_all decide
  · with_unfolding_all decide
  · norm_num [eps]

/-! Aggregation: with distinct keys, the values of the result sum to the
total allocation of the flat parts. -/

theorem forall2MemRight {α : Type} {R : α → α → Prop} :
    ∀ {l m : List α}, List.Forall₂ R l m → ∀ b ∈ m, ∃ a ∈ l, R a b := by
  intro l m h
  induction h with
  | nil => intro b hb; cases hb
  | cons hab _ ih =>
    intro b hb
    rcases List.mem_cons.1 hb with hb | hb
    · exact ⟨_, List.mem_cons_self _ _, hb ▸ hab⟩
    · obtain ⟨a, ha, hr⟩ := ih b hb
      exact ⟨a, List.mem_cons_of_mem _ ha, hr⟩

theorem forall2AppendInv {α : Type} (R : α → α → Prop) :
    ∀ (l1 l2 : List α) {m : List α}, List.Forall₂ R (l1 ++ l2) m →
      ∃ m1 m2, m = m1 ++ m2 ∧ List.Forall₂ R l1 m1 ∧ List.Forall₂ R l2 m2 := by
  intro l1
  induction l1 with
  | nil => intro l2 m h; exact ⟨[], m, rfl, .nil, h⟩
  | cons a l1 ih =>
    intro l2 m h
    cases h with
    | cons hab ht =>
      obtain ⟨m1, m2, rfl, h1, h2⟩ := ih l2 ht
      exact ⟨_ :: m1, m2, rfl, .cons hab h1, h2⟩

theorem flattenEntry_key {k : String} {e : FlexEntry} {p : FlatPart}
    (h : p ∈ flattenEntry k e) : p.key = k := by
  cases e with
  | single q =>
      simp only [flattenEntry, List.mem_singleton] at h
      rw [h]
  | many qs =>
      simp only [flattenEntry, List.mem_map] at h
      obtain ⟨ip, _, hp⟩ := h
      rw [← hp]

theorem flattenEntry_single_index {k : String} {q : IFlexBoxPart} {p : FlatPart}
    (h : p ∈ flattenEntry k (.single q)) : p.index = none := by
  simp only [flattenEntry, List.mem_singleton] at h
  rw [h]

theorem flattenParts_key {parts : List (String × FlexEntry)} {p : FlatPart}
    (h : p ∈ flattenParts parts) : p.key ∈ parts.map Prod.fst := by
  unfold flattenParts at h
  rw [List.mem_flatMap] at h
  obtain ⟨ke, hke, hp⟩ := h
  rw [flattenEntry_key hp]
  exact List.mem_map.2 ⟨ke, hke, rfl⟩

theorem flattenParts_cons (ke : String × FlexEntry) (rest : List (String × FlexEntry)) :
    flattenParts (ke :: rest) = flattenEntry ke.1 ke.2 ++ flattenParts rest := by
  simp [flattenParts]

theorem findNoneAppend {α : Type} (p : α → Bool) {l1 : List α}
    (h : ∀ a ∈ l1, p a = false) (l2 : List α) :
    (l1 ++ l2).find? p = l2.find? p := by
  induction l1 with
  | nil => rfl
  | cons a l ih =>
      simp only [List.cons_append, List.find?, h a (List.mem_cons_self a l)]
      exact ih (fun x hx => h x (List.mem_cons_of_mem _ hx))

theorem allocSum_append (l1 l2 : List FlatPart) :
    allocSum (l1 ++ l2) = allocSum l1 + allocSum l2 := by
  simp [allocSum]

theorem buildResult_drop (rest : List (String × FlexEntry)) (fs1 fs2 : List FlatPart)
    (h : ∀ p ∈ fs1, p.key ∉ rest.map Prod.fst) :
    buildResult rest (fs1 ++ fs2) = buildResult rest fs2 := by
  unfold buildResult
  apply List.map_congr_left
  intro ke hke
  have hkey : ∀ p ∈ fs1, decide (p.key = ke.1) = false := by
    intro p hp
    simp only [decide_eq_false_iff_not]
    intro hc
    exact h p hp (hc ▸ List.mem_map.2 ⟨ke, hke, rfl⟩)
  cases he : ke.2 with
  | many qs =>
      simp only
      rw [List.filter_append, List.filter_eq_nil_iff.2 (by
        intro p hp
        simp only [Bool.not_eq_true]
        exact hkey p hp)]
      rfl
  | single q =>
      simp only
      rw [findNoneAppend _ (fun p hp => by
        rw [Bool.and_eq_false_iff]
        exact Or.inl (hkey p hp)) fs2]

theorem buildResult_cons_many (k : String) (qs : List IFlexBoxPart)
    (rest : List (String × FlexEntry)) (fps : List FlatPart) :
    buildResult ((k, FlexEntry.many qs) :: rest) fps =
      (k, ((fps.filter (fun p => decide (p.key = k))).map
        (fun p => p.allocatedSize)).sum) :: buildResult rest fps := rfl

theorem buildResult_cons_single (k : String) (q : IFlexBoxPart)
    (rest : List (String × FlexEntry)) (fps : List FlatPart) :
    buildResult ((k, FlexEntry.single q) :: rest) fps =
      (k, (fps.find? (fun p => decide (p.key = k) && decide (p.index = none))).elim 0
        (fun p => p.allocatedSize)) :: buildResult rest fps := rfl

theorem buildResult_sum :
    ∀ (parts : List (String × FlexEntry)) (fps : List FlatPart),
      (parts.map Prod.fst).Nodup →
      List.Forall₂ sameSpec (flattenParts parts) fps →
      ((buildResult parts fps).map Prod.snd).sum = allocSum fps := by
  intro parts
  induction parts with
  | nil =>
      intro fps _ h
      rw [show flattenParts [] = [] from rfl] at h
      cases h
      rfl
  | cons ke rest ih =>
      intro fps hnd hf
      obtain ⟨k, e⟩ := ke
      rw [flattenParts_cons] at hf
      obtain ⟨fs1, fs2, rfl, h1, h2⟩ := forall2AppendInv sameSpec _ _ hf
      rw [List.map_cons, List.nodup_cons] at hnd
      have hk1 : ∀ p ∈ fs1, p.key = k := by
        intro p hp
        obtain ⟨a, ha, hr⟩ := forall2MemRight h1 p hp
        rw [← hr.1, flattenEntry_key ha]
      have hk2 : ∀ p ∈ fs2, decide (p.key = k) = false := by
        intro p hp
        obtain ⟨a, ha, hr⟩ := forall2MemRight h2 p hp
        simp only [decide_eq_false_iff_not]
        intro hc
        exact hnd.1 (hc ▸ hr.1 ▸ flattenParts_key ha)
      have hdrop : buildResult rest (fs1 ++ fs2) = buildResult rest fs2 :=
        buildResult_drop rest fs1 fs2 (by
          intro p hp hc
          exact hnd.1 (hk1 p hp ▸ hc))
      have hrec := ih fs2 hnd.2 h2
      cases e with
      | many qs =>
          rw [buildResult_cons_many, List.map_cons, List.sum_cons, hdrop, hrec,
            List.filter_append, allocSum_append]
          have e1 : fs1.filter (fun p => decide (p.key = k)) = fs1 :=
            List.filter_eq_self.2 (fun p hp => by simp [hk1 p hp])
          have e2 : fs2.filter (fun p => decide (p.key = k)) = [] :=
            List.filter_eq_nil_iff.2 (fun p hp => by simp [hk2 p hp])
          rw [e1, e2, List.append_nil]
          rfl
      | single q =>
          cases h1 with
          | cons hxy htail =>
            cases htail
            rename_i y
            rw [buildResult_cons_single, List.map_cons, List.sum_cons, hdrop, hrec]
            have hky : y.key = k := hk1 y (List.mem_singleton_self y)
            have hiy : y.index = none := by rw [← hxy.2.1]
            have hfind : List.find? (fun p => decide (p.key = k) && decide (p.index = none))
                (y :: fs2) = some y :=
              List.find?_cons_of_pos fs2 (by simp [hky, hiy])
            rw [List.singleton_append, hfind]
            simp [allocSum]

theorem initialParts_sameSpec (parts : List (String × FlexEntry)) :
    List.Forall₂ sameSpec (flattenParts parts) (initialParts parts) := by
  unfold initialParts minAllocated
  exact List.forall₂_map_right_iff.2
    (List.forall₂_same.2 fun p _ => ⟨rfl, rfl, rfl, rfl, rfl, rfl⟩)

theorem flatten_final_sameSpec (t : ℚ) (parts : List (String × FlexEntry)) :
    List.Forall₂ sameSpec (flattenParts parts) (finalState t parts).1 := by
  unfold finalState
  exact forall2Comp sameSpec EvolPart sameSpec (fun a b c ha hb => sameSpec_trans ha hb.1)
    (initialParts_sameSpec parts) (distributeLoop_evolPart _ _ _)

theorem allocSum_initialParts (parts : List (String × FlexEntry)) :
    allocSum (initialParts parts) = totalMinOf (flattenParts parts) := by
  unfold initialParts minAllocated allocSum totalMinOf
  rw [List.map_map]
  rfl

theorem ltFin_false_of {x : QInf} {t : ℚ} (h : ∀ m : ℚ, x = QInf.fin m → t ≤ m) :
    QInf.ltFin x t = false := by
  cases x with
  | fin a => simpa [QInf.ltFin, not_lt] using h a rfl
  | inf => rfl

/-- C1 (amended): every feasible input (total minimum at most `totalSize`, and
`totalSize` at most the total maximum whenever that is finite) yields a
non-null mapping; with distinct keys its values sum to `totalSize` minus the
budget the tier loop left undistributed. That leftover is `0` in ordinary
runs but is not bounded by `eps` in general (for instance when every region
of a tier has `share = 0`), so the original "within epsilon" bound fails. -/
theorem feasible_returns_sum (t : ℚ) (parts : List (String × FlexEntry))
    (hmin : totalMinOf (flattenParts parts) ≤ t)
    (hmax : ∀ m : ℚ, totalMaxOf (flattenParts parts) = QInf.fin m → t ≤ m)
    (hkeys : (parts.map Prod.fst).Nodup) :
    distributeFlexBoxLayout t parts =
      some (buildResult parts (finalState t parts).1) ∧
    ((buildResult parts (finalState t parts).1).map Prod.snd).sum =
      t - (finalState t parts).2 := by
  constructor
  · simp only [distributeFlexBoxLayout]
    rw [if_neg (not_lt.2 hmin), if_neg (by simp [ltFin_false_of hmax])]
  · rw [buildResult_sum parts _ hkeys (flatten_final_sameSpec t parts)]
    have hsum := distributeLoop_sum (prioritiesOf (flattenParts parts))
      (initialRemaining t parts) (initialParts parts)
    rw [allocSum_initialParts] at hsum
    unfold finalState
    unfold initialRemaining at hsum ⊢
    linarith

/-- Witness for `feasible_returns_sum` on the source file's example input. -/
theorem feasible_returns_sum_witness :
    totalMinOf (flattenParts exampleParts) ≤ 1000 ∧
    (∀ m : ℚ, totalMaxOf (flattenParts exampleParts) = QInf.fin m → 1000 ≤ m) ∧
    (exampleParts.map Prod.fst).Nodup ∧
    (distributeFlexBoxLayout 1000 exampleParts =
        some (buildResult exampleParts (finalState 1000 exampleParts).1) ∧
      ((buildResult exampleParts (finalState 1000 exampleParts).1).map Prod.snd).sum =
        1000 - (finalState 1000 exampleParts).2) := by
  have hmax : ∀ m : ℚ, totalMaxOf (flattenParts exampleParts) = QInf.fin m → 1000 ≤ m := by
    intro m h
    rw [show totalMaxOf (flattenParts exampleParts) = QInf.inf from by
      with_unfolding_all decide] at h
    exact QInf.noConfusion h
  exact ⟨by with_unfolding_all decide, hmax, by with_unfolding_all decide,
    feasible_returns_sum 1000 exampleParts (by with_unfolding_all decide) hmax
      (by with_unfolding_all decide)⟩

/-! Monotonicity of allocations under nonnegative shares. -/

theorem stepOne_share (pr s A : ℚ) (p : FlatPart) : (stepOne pr s A p).share = p.share := by
  unfold stepOne
  split <;> rfl

theorem activeShare_nonneg {pr : ℚ} {ps : List FlatPart}
    (h : ∀ p ∈ ps, 0 ≤ p.share) : 0 ≤ activeShareAt pr ps := by
  unfold activeShareAt
  apply List.sum_nonneg
  intro x hx
  rw [List.mem_map] at hx
  obtain ⟨p, hp, rfl⟩ := hx
  exact h p (List.mem_of_mem_filter hp)

theorem incOf_nonneg {s A : ℚ} {p : FlatPart} (hs : 0 < s) (hsh : 0 ≤ p.share)
    (hA : 0 < A) (hact : isActive p = true) : 0 ≤ incOf s A p := by
  have hd : 0 ≤ s * (p.share / A) := by positivity
  unfold incOf
  unfold isActive at hact
  cases hmax : p.max with
  | fin m =>
      rw [hmax] at hact
      simp only [QInf.finLt, decide_eq_true_eq] at hact
      simp only [QInf.sub, QInf.minFin, le_min_iff]
      exact ⟨hd, by linarith⟩
  | inf => exact hd

theorem stepOne_alloc_le {pr s A : ℚ} {p : FlatPart} (hs : 0 < s) (hsh : 0 ≤ p.share)
    (hA : 0 < A) : p.allocatedSize ≤ (stepOne pr s A p).allocatedSize := by
  unfold stepOne
  split
  · rename_i h
    have := incOf_nonneg hs hsh hA h.2
    simp only
    linarith
  · exact le_refl _

theorem eps_pos : 0 < eps := by norm_num [eps]

theorem tierLoop_alloc_le (pr : ℚ) : ∀ (fuel : Nat) (s : ℚ) (ps : List FlatPart),
    (∀ p ∈ ps, 0 ≤ p.share) →
    List.Forall₂ (fun a b => a.allocatedSize ≤ b.allocatedSize) ps
      (tierLoop pr fuel s ps).1 := by
  intro fuel
  induction fuel with
  | zero => intro s ps _; exact forall2Refl (fun a b : FlatPart => a.allocatedSize ≤ b.allocatedSize) (fun a => le_refl _) ps
  | succ n ih =>
    intro s ps hsh
    simp only [tierLoop, distributeRound_eq]
    split
    · rename_i hs
      split
      · exact forall2Refl (fun a b : FlatPart => a.allocatedSize ≤ b.allocatedSize) (fun a => le_refl _) ps
      · rename_i hA
        have hA' : 0 < activeShareAt pr ps :=
          lt_of_le_of_ne (activeShare_nonneg hsh) (Ne.symm hA)
        have hstep : List.Forall₂ (fun a b => a.allocatedSize ≤ b.allocatedSize) ps
            (ps.map (stepOne pr s (activeShareAt pr ps))) :=
          List.forall₂_map_right_iff.2 (List.forall₂_same.2 fun p hp =>
            stepOne_alloc_le (lt_trans eps_pos hs) (hsh p hp) hA')
        split
        · exact hstep
        · refine forall2Trans (fun a b : FlatPart => a.allocatedSize ≤ b.allocatedSize) (fun a b c h1 h2 => le_trans h1 h2) hstep (ih _ _ ?_)
          intro p hp
          rw [List.mem_map] at hp
          obtain ⟨q, hq, rfl⟩ := hp
          rw [stepOne_share]
          exact hsh q hq
    · exact forall2Refl (fun a b : FlatPart => a.allocatedSize ≤ b.allocatedSize) (fun a => le_refl _) ps

theorem distributeLoop_alloc_le : ∀ (qs : List ℚ) (rem : ℚ) (ps : List FlatPart),
    (∀ p ∈ ps, 0 ≤ p.share) →
    List.Forall₂ (fun a b => a.allocatedSize ≤ b.allocatedSize) ps
      (distributeLoop qs rem ps).1 := by
  intro qs
  induction qs with
  | nil => intro rem ps _; exact forall2Refl (fun a b : FlatPart => a.allocatedSize ≤ b.allocatedSize) (fun a => le_refl _) ps
  | cons pr rest ih =>
    intro rem ps hsh
    simp only [distributeLoop]
    split
    · exact forall2Refl (fun a b : FlatPart => a.allocatedSize ≤ b.allocatedSize) (fun a => le_refl _) ps
    · split
      · exact ih rem ps hsh
      · refine forall2Trans (fun a b : FlatPart => a.allocatedSize ≤ b.allocatedSize)
          (fun a b c h1 h2 => le_trans h1 h2)
          (tierLoop_alloc_le pr _ rem ps hsh) (ih _ _ ?_)
        intro p hp
        obtain ⟨a, ha, hr⟩ := forall2MemRight (tierLoop_evolAt pr _ rem ps) p hp
        rw [← hr.1.1.2.2.2.2.2]
        exact hsh a ha

theorem forall2And {α : Type} (R S : α → α → Prop) :
    ∀ {l m : List α}, List.Forall₂ R l m → List.Forall₂ S l m →
      List.Forall₂ (fun a b => R a b ∧ S a b) l m := by
  intro l m hR
  induction hR with
  | nil => intro h; cases h; exact .nil
  | cons h1 _ ih =>
    intro hS
    cases hS with
    | cons h2 t2 => exact .cons ⟨h1, h2⟩ (ih t2)

/-- C3 (amended): if additionally every share is nonnegative, then the
bounds `min ≤ allocated ≤ max` hold for every flat region right after
minimum allocation, are preserved by every distribution round of the tier
loop (under the loop's own guards), and hold at return. Nonnegativity of the
shares is necessary: a negative share can drive an allocation below `min`. -/
theorem alloc_within_bounds (t : ℚ) (parts : List (String × FlexEntry))
    (hmm : ∀ p ∈ flattenParts parts, QInf.finLe p.min p.max = true)
    (hsh : ∀ p ∈ flattenParts parts, 0 ≤ p.share) :
    (∀ p ∈ initialParts parts,
      p.min ≤ p.allocatedSize ∧ QInf.finLe p.allocatedSize p.max = true) ∧
    (∀ (pr s : ℚ) (ps : List FlatPart), eps < s → activeShareAt pr ps ≠ 0 →
      (∀ p ∈ ps, 0 ≤ p.share) →
      (∀ p ∈ ps, p.min ≤ p.allocatedSize ∧ QInf.finLe p.allocatedSize p.max = true) →
      (∀ p ∈ (distributeRound pr s (activeShareAt pr ps) ps).1,
        p.min ≤ p.allocatedSize ∧ QInf.finLe p.allocatedSize p.max = true)) ∧
    (∀ p ∈ (finalState t parts).1,
      p.min ≤ p.allocatedSize ∧ QInf.finLe p.allocatedSize p.max = true) := by
  have hinit : ∀ p ∈ initialParts parts,
      p.min ≤ p.allocatedSize ∧ QInf.finLe p.allocatedSize p.max = true := by
    intro p hp
    unfold initialParts minAllocated at hp
    rw [List.mem_map] at hp
    obtain ⟨q, hq, rfl⟩ := hp
    exact ⟨le_refl _, hmm q hq⟩
  refine ⟨hinit, ?_, ?_⟩
  · intro pr s ps hs hA hshl hbound p hp
    rw [distributeRound_eq] at hp
    rw [show ((ps.map (stepOne pr s (activeShareAt pr ps)),
      (ps.map (incContrib pr s (activeShareAt pr ps))).sum)).1 =
        ps.map (stepOne pr s (activeShareAt pr ps)) from rfl, List.mem_map] at hp
    obtain ⟨q, hq, rfl⟩ := hp
    have hA' : 0 < activeShareAt pr ps :=
      lt_of_le_of_ne (activeShare_nonneg hshl) (Ne.symm hA)
    have hspec := (stepOne_evolAt pr s (activeShareAt pr ps) q).1
    constructor
    · have hle := @stepOne_alloc_le pr s (activeShareAt pr ps) q
        (lt_trans eps_pos hs) (hshl q hq) hA'
      have hmin := hspec.1.2.2.1
      rw [← hmin]
      exact le_trans (hbound q hq).1 hle
    · exact hspec.2.2 (hbound q hq).2
  · intro p hp
    unfold finalState at hp
    have hshInit : ∀ p ∈ initialParts parts, 0 ≤ p.share := by
      intro q hq
      unfold initialParts minAllocated at hq
      rw [List.mem_map] at hq
      obtain ⟨r, hr, rfl⟩ := hq
      exact hsh r hr
    have hboth := forall2And _ _
      (distributeLoop_alloc_le (prioritiesOf (flattenParts parts))
        (initialRemaining t parts) (initialParts parts) hshInit)
      (distributeLoop_evolPart (prioritiesOf (flattenParts parts))
        (initialRemaining t parts) (initialParts parts))
    obtain ⟨a, ha, hle, hev⟩ := forall2MemRight hboth p hp
    obtain ⟨hamin, hafin⟩ := hinit a ha
    constructor
    · rw [← hev.1.2.2.1]
      exact le_trans hamin hle
    · exact hev.2.2 hafin

/-- Witness for `alloc_within_bounds` on the source file's example input. -/
theorem alloc_within_bounds_witness :
    (∀ p ∈ flattenParts exampleParts, QInf.finLe p.min p.max = true) ∧
    (∀ p ∈ flattenParts exampleParts, 0 ≤ p.share) ∧
    ((∀ p ∈ initialParts exampleParts,
        p.min ≤ p.allocatedSize ∧ QInf.finLe p.allocatedSize p.max = true) ∧
      (∀ (pr s : ℚ) (ps : List FlatPart), eps < s → activeShareAt pr ps ≠ 0 →
        (∀ p ∈ ps, 0 ≤ p.share) →
        (∀ p ∈ ps, p.min ≤ p.allocatedSize ∧ QInf.finLe p.allocatedSize p.max = true) →
        (∀ p ∈ (distributeRound pr s (activeShareAt pr ps) ps).1,
          p.min ≤ p.allocatedSize ∧ QInf.finLe p.allocatedSize p.max = true)) ∧
      (∀ p ∈ (finalState 1000 exampleParts).1,
        p.min ≤ p.allocatedSize ∧ QInf.finLe p.allocatedSize p.max = true)) :=
  ⟨by with_unfolding_all decide, by with_unfolding_all decide,
    alloc_within_bounds 1000 exampleParts (by with_unfolding_all decide)
      (by with_unfolding_all decide)⟩

/-- C3 counterexample: every region of this input satisfies `min ≤ max`, yet
a negative `share` drives one region's final allocation strictly below its
minimum. -/
theorem bounds_cex :
    (∀ p ∈ flattenParts
        [("a", FlexEntry.single { share := some (-1) }),
         ("b", FlexEntry.single { share := some 2 })],
      QInf.finLe p.min p.max = true) ∧
    ∃ p ∈ (finalState 10
        [("a", FlexEntry.single { share := some (-1) }),
         ("b", FlexEntry.single { share := some 2 })]).1,
      p.allocatedSize < p.min := by
  constructor
  · with_unfolding_all decide
  · with_unfolding_all decide

/-- C6 counterexample: two regions in the same tier with equal share and
equal remaining headroom (`10` each after minimum allocation) receive equal
increases but end with different final allocations (`7.5` and `12.5`),
because their minimums differ. -/
theorem equal_share_headroom_cex :
    ((initialParts
        [("a", FlexEntry.single { min := some 0, max := some 10 }),
         ("b", FlexEntry.single { min := some 5, max := some 15 })]).map
      (fun p => (p.share, p.max.sub p.allocatedSize)) =
        [(1, QInf.fin 10), (1, QInf.fin 10)]) ∧
    ((finalState 20
        [("a", FlexEntry.single { min := some 0, max := some 10 }),
         ("b", FlexEntry.single { min := some 5, max := some 15 })]).1.map
      (fun p => p.allocatedSize) = [15 / 2, 25 / 2]) ∧
    (15 / 2 : ℚ) ≠ 25 / 2 := by
  refine ⟨?_, ?_, ?_⟩
  · with_unfolding_all decide
  · with_unfolding_all decide
  · norm_num

/-! Termination: with nonnegative shares the iteration cap is never the
binding exit condition; the tier loop reaches its fixed point within
`2 * (tier size)` rounds. -/

theorem tierLoop_noop {pr : ℚ} {s : ℚ} (fuel : Nat) (ps : List FlatPart)
    (h : s ≤ eps) : tierLoop pr fuel s ps = (ps, s) := by
  cases fuel with
  | zero => rfl
  | succ n => rw [tierLoop, if_neg (not_lt.2 h)]

theorem activeGuard_iff {pr : ℚ} {p : FlatPart} :
    (decide (p.priority = pr) && isActive p) = true ↔ (p.priority = pr ∧ isActive p = true) := by
  rw [Bool.and_eq_true, decide_eq_true_eq]

theorem sum_inc_eq (pr s A : ℚ) : ∀ ps : List FlatPart,
    (∀ p ∈ ps, p.priority = pr → isActive p = true → incOf s A p = s * (p.share / A)) →
    (ps.map (incContrib pr s A)).sum = s * (activeShareAt pr ps / A) := by
  intro ps
  induction ps with
  | nil => intro _; simp [activeShareAt]
  | cons p rest ih =>
    intro hall
    have hrest := ih (fun q hq => hall q (List.mem_cons_of_mem _ hq))
    simp only [List.map_cons, List.sum_cons, incContrib]
    unfold activeShareAt
    rw [List.filter_cons]
    by_cases hg : p.priority = pr ∧ isActive p = true
    · rw [if_pos hg, if_pos (activeGuard_iff.2 hg)]
      simp only [List.map_cons, List.sum_cons]
      rw [hall p (List.mem_cons_self p rest) hg.1 hg.2, hrest]
      unfold activeShareAt
      ring
    · rw [if_neg hg, if_neg (by rw [activeGuard_iff]; exact hg)]
      rw [hrest]
      unfold activeShareAt
      ring

theorem inc_eq_desired_of_still_active {pr s A : ℚ} {p : FlatPart}
    (hpp : p.priority = pr) (ha : isActive p = true)
    (ha2 : isActive (stepOne pr s A p) = true) : incOf s A p = s * (p.share / A) := by
  unfold stepOne at ha2
  rw [if_pos ⟨hpp, ha⟩] at ha2
  cases hm : p.max with
  | inf =>
      unfold incOf
      rw [hm]
      rfl
  | fin m =>
      have hval : incOf s A p = min (s * (p.share / A)) (m - p.allocatedSize) := by
        unfold incOf
        rw [hm]
        rfl
      unfold isActive at ha2
      rw [hm] at ha2
      simp only [QInf.finLt, decide_eq_true_eq] at ha2
      rw [hval] at ha2 ⊢
      rcases le_or_lt (m - p.allocatedSize) (s * (p.share / A)) with h | h
      · exfalso
        rw [min_eq_right h] at ha2
        linarith
      · exact min_eq_left (le_of_lt h)

theorem countP_lt_of_mem {α : Type} {q r : α → Bool} :
    ∀ {l : List α}, (∀ x ∈ l, q x = true → r x = true) → ∀ {x : α}, x ∈ l →
      r x = true → q x = false → l.countP q < l.countP r := by
  intro l
  induction l with
  | nil => intro _ x hx; cases hx
  | cons a as ih =>
    intro hmono x hx hrx hqx
    rw [List.countP_cons, List.countP_cons]
    have htle : as.countP q ≤ as.countP r :=
      List.countP_mono_left (fun y hy => hmono y (List.mem_cons_of_mem _ hy))
    rcases List.mem_cons.1 hx with rfl | hx2
    · rw [hqx, hrx]
      simp
      omega
    · have hstrict := ih (fun y hy => hmono y (List.mem_cons_of_mem _ hy)) hx2 hrx hqx
      have hhead : (if q a = true then 1 else 0) ≤ (if r a = true then 1 else 0) := by
        by_cases hqa : q a = true
        · rw [if_pos hqa, if_pos (hmono a (List.mem_cons_self a as) hqa)]
        · rw [if_neg hqa]
          omega
      omega

theorem stepOne_priority (pr s A : ℚ) (p : FlatPart) :
    (stepOne pr s A p).priority = p.priority := by
  unfold stepOne
  split <;> rfl

theorem stepOne_inactive_of_inactive {pr s A : ℚ} {p : FlatPart}
    (h : isActive (stepOne pr s A p) = true) : isActive p = true := by
  by_contra hc
  rw [Bool.not_eq_true] at hc
  unfold stepOne at h
  rw [if_neg (by intro hand; rw [hand.2] at hc; cases hc)] at h
  rw [h] at hc
  cases hc

theorem countP_pos_of_activeShare {pr : ℚ} {ps : List FlatPart}
    (hA : activeShareAt pr ps ≠ 0) :
    0 < ps.countP (fun p => decide (p.priority = pr) && isActive p && decide (p.share ≠ 0)) := by
  rw [List.countP_pos]
  by_contra h
  push_neg at h
  apply hA
  unfold activeShareAt
  apply List.sum_eq_zero
  intro x hx
  rw [List.mem_map] at hx
  obtain ⟨p, hp, rfl⟩ := hx
  have hmem := List.mem_filter.1 hp
  have hnp := h p hmem.1
  by_contra hz
  exact hnp (by
    rw [Bool.and_eq_true]
    exact ⟨hmem.2, by simp [hz]⟩)

theorem round_progress (pr s : ℚ) (ps : List FlatPart)
    (hA : activeShareAt pr ps ≠ 0) :
    (ps.map (incContrib pr s (activeShareAt pr ps))).sum = s ∨
    (ps.map (stepOne pr s (activeShareAt pr ps))).countP
        (fun p => decide (p.priority = pr) && isActive p && decide (p.share ≠ 0)) <
      ps.countP (fun p => decide (p.priority = pr) && isActive p && decide (p.share ≠ 0)) := by
  by_cases hex : ∃ p ∈ ps, (p.priority = pr ∧ isActive p = true) ∧
      isActive (stepOne pr s (activeShareAt pr ps) p) = false
  · right
    obtain ⟨p, hp, ⟨hpp, hact⟩, hact2⟩ := hex
    rw [List.countP_map]
    have hshp : p.share ≠ 0 := by
      intro hz
      have hinc := @incOf_zero_share s (activeShareAt pr ps) p hz hact
      have : isActive (stepOne pr s (activeShareAt pr ps) p) = isActive p := by
        unfold stepOne
        rw [if_pos ⟨hpp, hact⟩, hinc]
        unfold isActive
        simp
      rw [this, hact] at hact2
      cases hact2
    apply countP_lt_of_mem ?_ hp ?_ ?_
    · intro x _ hx
      rw [Function.comp_apply, Bool.and_eq_true, Bool.and_eq_true] at hx
      obtain ⟨⟨hx1, hx2⟩, hx3⟩ := hx
      rw [Bool.and_eq_true, Bool.and_eq_true]
      rw [stepOne_priority] at hx1
      rw [stepOne_share] at hx3
      exact ⟨⟨hx1, stepOne_inactive_of_inactive hx2⟩, hx3⟩
    · rw [Bool.and_eq_true, Bool.and_eq_true]
      exact ⟨⟨by simp [hpp], hact⟩, by simp [hshp]⟩
    · rw [Function.comp_apply]
      simp [hact2]
  · left
    push_neg at hex
    have hall : ∀ p ∈ ps, p.priority = pr → isActive p = true →
        incOf s (activeShareAt pr ps) p = s * (p.share / activeShareAt pr ps) := by
      intro p hp hpp hact
      have hne := hex p hp ⟨hpp, hact⟩
      rcases Bool.eq_false_or_eq_true
          (isActive (stepOne pr s (activeShareAt pr ps) p)) with hb | hb
      · exact inc_eq_desired_of_still_active hpp hact hb
      · exact absurd hb hne

    rw [sum_inc_eq pr s (activeShareAt pr ps) ps hall, div_self hA, mul_one]

theorem tierLoop_stable (pr : ℚ) : ∀ (m fuel1 fuel2 : Nat) (s : ℚ) (ps : List FlatPart),
    ps.countP (fun p => decide (p.priority = pr) && isActive p && decide (p.share ≠ 0)) ≤ m →
    m + 1 ≤ fuel1 → fuel1 ≤ fuel2 →
    tierLoop pr fuel1 s ps = tierLoop pr fuel2 s ps := by
  intro m
  induction m with
  | zero =>
    intro fuel1 fuel2 s ps hm h1 h2
    cases fuel1 with
    | zero => omega
    | succ f1 =>
      cases fuel2 with
      | zero => omega
      | succ f2 =>
        simp only [tierLoop, distributeRound_eq]
        by_cases hs : eps < s
        · simp only [if_pos hs]
          by_cases hA : activeShareAt pr ps = 0
          · simp only [if_pos hA]
          · exact absurd hm (by
              have := countP_pos_of_activeShare hA
              omega)
        · simp only [if_neg hs]
  | succ k ih =>
    intro fuel1 fuel2 s ps hm h1 h2
    cases fuel1 with
    | zero => omega
    | succ f1 =>
      cases fuel2 with
      | zero => omega
      | succ f2 =>
        simp only [tierLoop, distributeRound_eq]
        by_cases hs : eps < s
        · simp only [if_pos hs]
          by_cases hA : activeShareAt pr ps = 0
          · simp only [if_pos hA]
          · simp only [if_neg hA]
            by_cases hd : (ps.map (incContrib pr s (activeShareAt pr ps))).sum < eps
            · simp only [if_pos hd]
            · simp only [if_neg hd]
              rcases round_progress pr s ps hA with hfull | hless
              · rw [hfull, tierLoop_noop f1 _ (by rw [sub_self]; exact le_of_lt eps_pos),
                  tierLoop_noop f2 _ (by rw [sub_self]; exact le_of_lt eps_pos)]
              · exact ih f1 f2 _ _ (by omega) (by omega) (by omega)
        · simp only [if_neg hs]

/-- C9: the tier loop's iteration cap `2 × (tier size)` — the source's
`maxIterations` — always suffices: on every input, running the loop with any
fuel at least the cap gives exactly the result at the cap, so the loop's
fixed point is reached within the cap and the algorithm's running time is
bounded by the cap per tier with no unbounded looping. -/
theorem tier_cap_suffices (pr s : ℚ) (ps : List FlatPart) :
    ∀ fuel : Nat, 2 * (ps.filter (fun p => decide (p.priority = pr))).length ≤ fuel →
      tierLoop pr fuel s ps =
        tierLoop pr (2 * (ps.filter (fun p => decide (p.priority = pr))).length) s ps := by
  intro fuel hfuel
  by_cases hn0 : (ps.filter (fun p => decide (p.priority = pr))).length = 0
  · have hnil : ps.filter (fun p => decide (p.priority = pr)) = [] :=
      List.length_eq_zero.1 hn0
    have hnoact : activeShareAt pr ps = 0 := by
      unfold activeShareAt
      rw [show ps.filter (fun p => decide (p.priority = pr) && isActive p) = [] from by
        apply List.eq_nil_iff_forall_not_mem.2
        intro x hx
        have hx2 := List.mem_filter.1 hx
        have hx3 : x ∈ ps.filter (fun p => decide (p.priority = pr)) :=
          List.mem_filter.2 ⟨hx2.1, by simp [(activeGuard_iff.1 hx2.2).1]⟩
        rw [hnil] at hx3
        cases hx3]
      rfl
    have hboth : ∀ f, tierLoop pr f s ps = (ps, s) := by
      intro f
      cases f with
      | zero => rfl
      | succ g =>
        simp only [tierLoop]
        by_cases hs : eps < s
        · simp [hs, hnoact]
        · simp [hs]
    rw [hboth fuel, hboth _]
  · have hcount : ps.countP
        (fun p => decide (p.priority = pr) && isActive p && decide (p.share ≠ 0)) ≤
        (ps.filter (fun p => decide (p.priority = pr))).length := by
      rw [← List.countP_eq_length_filter]
      apply List.countP_mono_left
      intro x _ hx
      rw [Bool.and_eq_true, Bool.and_eq_true] at hx
      exact hx.1.1
    exact (tierLoop_stable pr
      (ps.countP (fun p => decide (p.priority = pr) && isActive p && decide (p.share ≠ 0)))
      (2 * (ps.filter (fun p => decide (p.priority = pr))).length) fuel s ps
      (le_refl _) (by omega) hfuel).symm

/-- Witness for `tier_cap_suffices` on the example input's priority-2 tier. -/
theorem tier_cap_suffices_witness :
    2 * ((initialParts exampleParts).filter (fun p => decide (p.priority = 2))).length ≤ 10 ∧
    tierLoop 2 10 840 (initialParts exampleParts) =
      tierLoop 2
        (2 * ((initialParts exampleParts).filter (fun p => decide (p.priority = 2))).length)
        840 (initialParts exampleParts) :=
  ⟨by with_unfolding_all decide,
    tier_cap_suffices 2 840 (initialParts exampleParts) 10 (by with_unfolding_all decide)⟩

/-! Priority saturation: higher tiers saturate before lower tiers grow,
for positive shares and clean (non-broken) runs. -/

theorem saturated_eq {p : FlatPart} (hact : isActive p = false)
    (hle : QInf.finLe p.allocatedSize p.max = true) :
    QInf.fin p.allocatedSize = p.max := by
  cases hm : p.max with
  | inf =>
      unfold isActive at hact
      rw [hm] at hact
      cases hact
  | fin m =>
      unfold isActive at hact
      rw [hm] at hact
      rw [hm] at hle
      simp only [QInf.finLt] at hact
      simp only [QInf.finLe, decide_eq_true_eq] at hle
      have hnl : ¬(p.allocatedSize < m) := by simpa using hact
      rw [le_antisymm hle (not_lt.1 hnl)]

theorem activeShare_zero_inactive {pr : ℚ} {ps : List FlatPart}
    (hsh : ∀ p ∈ ps, 0 < p.share) (hA : activeShareAt pr ps = 0) :
    ∀ p ∈ ps, p.priority = pr → isActive p = false := by
  intro p hp hppr
  by_contra hact
  rw [Bool.not_eq_false] at hact
  have hmem : p ∈ ps.filter (fun q => decide (q.priority = pr) && isActive q) :=
    List.mem_filter.2 ⟨hp, by simp [hppr, hact]⟩
  have hpos : 0 < activeShareAt pr ps := by
    unfold activeShareAt
    apply List.sum_pos
    · intro x hx
      rw [List.mem_map] at hx
      obtain ⟨q, hq, rfl⟩ := hx
      exact hsh q (List.mem_of_mem_filter hq)
    · intro hnil
      rw [List.map_eq_nil_iff] at hnil
      rw [hnil] at hmem
      cases hmem
  exact absurd hA (ne_of_gt hpos)

theorem map_stepOne_finLe {pr s A : ℚ} {ps : List FlatPart}
    (hle : ∀ p ∈ ps, QInf.finLe p.allocatedSize p.max = true) :
    ∀ p ∈ ps.map (stepOne pr s A), QInf.finLe p.allocatedSize p.max = true := by
  intro p hp
  rw [List.mem_map] at hp
  obtain ⟨q, hq, rfl⟩ := hp
  exact (stepOne_evolAt pr s A q).1.2.2 (hle q hq)

theorem map_stepOne_share_pos {pr s A : ℚ} {ps : List FlatPart}
    (hsh : ∀ p ∈ ps, 0 < p.share) :
    ∀ p ∈ ps.map (stepOne pr s A), 0 < p.share := by
  intro p hp
  rw [List.mem_map] at hp
  obtain ⟨q, hq, rfl⟩ := hp
  rw [stepOne_share]
  exact hsh q hq

theorem tierLoop_exit_clean (pr : ℚ) : ∀ (fuel : Nat) (s : ℚ) (ps : List FlatPart),
    (∀ p ∈ ps, 0 < p.share) →
    (∀ p ∈ ps, QInf.finLe p.allocatedSize p.max = true) →
    tierBroke pr fuel s ps = false →
    (tierLoop pr fuel s ps).2 ≤ eps ∨
      (∀ p ∈ (tierLoop pr fuel s ps).1, p.priority = pr →
        QInf.fin p.allocatedSize = p.max) := by
  intro fuel
  induction fuel with
  | zero =>
    intro s ps hsh hle hbr
    by_cases hs : eps < s
    · by_cases hA : activeShareAt pr ps = 0
      · right
        intro p hp hppr
        exact saturated_eq (activeShare_zero_inactive hsh hA p hp hppr) (hle p hp)
      · exfalso
        simp only [tierBroke] at hbr
        simp [hs, hA] at hbr
    · left
      exact not_lt.1 hs
  | succ n ih =>
    intro s ps hsh hle hbr
    simp only [tierLoop, tierBroke, distributeRound_eq] at hbr ⊢
    by_cases hs : eps < s
    · simp only [if_pos hs] at hbr ⊢
      by_cases hA : activeShareAt pr ps = 0
      · simp only [if_pos hA] at hbr ⊢
        right
        intro p hp hppr
        exact saturated_eq (activeShare_zero_inactive hsh hA p hp hppr) (hle p hp)
      · simp only [if_neg hA] at hbr ⊢
        by_cases hd : (ps.map (incContrib pr s (activeShareAt pr ps))).sum < eps
        · simp only [if_pos hd] at hbr
          cases hbr
        · simp only [if_neg hd] at hbr ⊢
          exact ih _ _ (map_stepOne_share_pos hsh) (map_stepOne_finLe hle) hbr
    · simp only [if_neg hs] at hbr ⊢
      left
      exact not_lt.1 hs

theorem sum_incContrib_nonneg {pr s A : ℚ} {ps : List FlatPart} (hs : 0 < s)
    (hA : 0 < A) (hsh : ∀ p ∈ ps, 0 ≤ p.share) :
    0 ≤ (ps.map (incContrib pr s A)).sum := by
  apply List.sum_nonneg
  intro x hx
  rw [List.mem_map] at hx
  obtain ⟨q, hq, rfl⟩ := hx
  unfold incContrib
  by_cases hg : q.priority = pr ∧ isActive q = true
  · rw [if_pos hg]
    exact incOf_nonneg hs (hsh q hq) hA hg.2
  · rw [if_neg hg]

theorem tierLoop_budget_le (pr : ℚ) : ∀ (fuel : Nat) (s : ℚ) (ps : List FlatPart),
    (∀ p ∈ ps, 0 ≤ p.share) → (tierLoop pr fuel s ps).2 ≤ s := by
  intro fuel
  induction fuel with
  | zero => intro s ps _; exact le_refl s
  | succ n ih =>
    intro s ps hsh
    simp only [tierLoop, distributeRound_eq]
    by_cases hs : eps < s
    · simp only [if_pos hs]
      by_cases hA : activeShareAt pr ps = 0
      · simp only [if_pos hA]
        exact le_refl s
      · simp only [if_neg hA]
        have hApos : 0 < activeShareAt pr ps :=
          lt_of_le_of_ne (activeShare_nonneg hsh) (Ne.symm hA)
        have hd0 : 0 ≤ (ps.map (incContrib pr s (activeShareAt pr ps))).sum :=
          sum_incContrib_nonneg (lt_trans eps_pos hs) hApos hsh
        by_cases hd : (ps.map (incContrib pr s (activeShareAt pr ps))).sum < eps
        · simp only [if_pos hd]
          linarith
        · simp only [if_neg hd]
          have htrans : ∀ p ∈ ps.map (stepOne pr s (activeShareAt pr ps)), 0 ≤ p.share := by
            intro p hp
            rw [List.mem_map] at hp
            obtain ⟨q, hq, rfl⟩ := hp
            rw [stepOne_share]
            exact hsh q hq
          have := ih (s - (ps.map (incContrib pr s (activeShareAt pr ps))).sum)
            (ps.map (stepOne pr s (activeShareAt pr ps))) htrans
          linarith
    · simp only [if_neg hs]
      exact le_refl s

theorem distributeLoop_frozen : ∀ (qs : List ℚ) (rem : ℚ) (ps : List FlatPart),
    rem ≤ eps → distributeLoop qs rem ps = (ps, rem) := by
  intro qs
  induction qs with
  | nil => intro rem ps _; rfl
  | cons pr rest ih =>
    intro rem ps hrem
    simp only [distributeLoop]
    by_cases h0 : rem ≤ 0
    · simp only [if_pos h0]
    · simp only [if_neg h0]
      by_cases hts : ((ps.filter (fun p => decide (p.priority = pr))).map
          (fun p => p.share)).sum = 0
      · simp only [if_pos hts]
        exact ih rem ps hrem
      · simp only [if_neg hts]
        rw [tierLoop_noop _ _ hrem]
        exact ih rem ps hrem

theorem concl_now {qs : List ℚ} {rem : ℚ} {ps : List FlatPart}
    (H4 : ∀ p ∈ ps, p.priority ∈ qs ∨ (∀ q' ∈ qs, q' < p.priority))
    (H5 : ∀ p ∈ ps, p.priority ∈ qs → p.allocatedSize = p.min)
    (H7 : ∀ p ∈ ps, (∀ q' ∈ qs, q' < p.priority) →
      QInf.fin p.allocatedSize = p.max ∨
        (rem ≤ eps ∧ ∀ p2 ∈ ps, p2.priority < p.priority → p2.allocatedSize = p2.min)) :
    ∀ p ∈ ps, ∀ q ∈ ps, p.min < p.allocatedSize → p.priority < q.priority →
      QInf.fin q.allocatedSize = q.max := by
  intro p hp q hq hgrow hlt
  have hpgrow : ¬ p.priority ∈ qs := by
    intro hin
    rw [H5 p hp hin] at hgrow
    exact lt_irrefl _ hgrow
  have hpab : ∀ q' ∈ qs, q' < p.priority := (H4 p hp).resolve_left hpgrow
  rcases H4 q hq with hqin | hqab
  · exact absurd hlt (not_lt.2 (le_of_lt (hpab _ hqin)))
  · rcases H7 q hq hqab with hmax | ⟨_, hmin2⟩
    · exact hmax
    · rw [hmin2 p hp hlt] at hgrow
      exact absurd hgrow (lt_irrefl _)

theorem distributeLoop_saturation : ∀ (qs : List ℚ) (rem : ℚ) (ps : List FlatPart),
    (∀ p ∈ ps, 0 < p.share) →
    (∀ p ∈ ps, QInf.finLe p.allocatedSize p.max = true) →
    qs.Pairwise (· > ·) →
    (∀ p ∈ ps, p.priority ∈ qs ∨ (∀ q' ∈ qs, q' < p.priority)) →
    (∀ p ∈ ps, p.priority ∈ qs → p.allocatedSize = p.min) →
    anyTierBroke qs rem ps = false →
    (∀ p ∈ ps, (∀ q' ∈ qs, q' < p.priority) →
      QInf.fin p.allocatedSize = p.max ∨
        (rem ≤ eps ∧ ∀ p2 ∈ ps, p2.priority < p.priority → p2.allocatedSize = p2.min)) →
    ∀ p ∈ (distributeLoop qs rem ps).1, ∀ q ∈ (distributeLoop qs rem ps).1,
      p.min < p.allocatedSize → p.priority < q.priority →
      QInf.fin q.allocatedSize = q.max := by
  intro qs
  induction qs with
  | nil =>
    intro rem ps _ _ _ H4 H5 _ H7
    exact concl_now H4 H5 H7
  | cons c rest ih =>
    intro rem ps H1 H2 H3 H4 H5 H6 H7
    by_cases heps : rem ≤ eps
    · rw [distributeLoop_frozen _ rem ps heps]
      exact concl_now H4 H5 H7
    · have hrem0 : ¬ rem ≤ 0 := fun h => heps (le_trans h (le_of_lt eps_pos))
      simp only [distributeLoop]
      simp only [anyTierBroke] at H6
      simp only [if_neg hrem0] at H6 ⊢
      have hcgt : ∀ q' ∈ rest, q' < c := fun q' hq' => (List.pairwise_cons.1 H3).1 q' hq'
      by_cases hts : ((ps.filter (fun p => decide (p.priority = c))).map
          (fun p => p.share)).sum = 0
      · simp only [if_pos hts] at H6 ⊢
        have hfe : ∀ p ∈ ps, p.priority ≠ c := by
          intro p hp hc
          have hmem : p ∈ ps.filter (fun q => decide (q.priority = c)) :=
            List.mem_filter.2 ⟨hp, by simp [hc]⟩
          have hpos : 0 < ((ps.filter (fun p => decide (p.priority = c))).map
              (fun p => p.share)).sum := by
            apply List.sum_pos
            · intro x hx
              rw [List.mem_map] at hx
              obtain ⟨q2, hq2, rfl⟩ := hx
              exact H1 q2 (List.mem_of_mem_filter hq2)
            · intro hnil
              rw [List.map_eq_nil_iff] at hnil
              rw [hnil] at hmem
              cases hmem
          exact absurd hts (ne_of_gt hpos)
        apply ih rem ps H1 H2 H3.of_cons
        · intro p hp
          rcases H4 p hp with hin | hab
          · rcases List.mem_cons.1 hin with hc | hin2
            · exact absurd hc (hfe p hp)
            · exact Or.inl hin2
          · exact Or.inr (fun q' hq' => hab q' (List.mem_cons_of_mem _ hq'))
        · exact fun p hp hin => H5 p hp (List.mem_cons_of_mem _ hin)
        · exact H6
        · intro p hp hab
          have hab2 : ∀ q' ∈ c :: rest, q' < p.priority := by
            intro q' hq'
            rcases List.mem_cons.1 hq' with rfl | hq2
            · rcases H4 p hp with hin | habp
              · rcases List.mem_cons.1 hin with hc | hin2
                · exact absurd hc (hfe p hp)
                · exact absurd (hab _ hin2) (lt_irrefl _)
              · exact habp _ (List.mem_cons_self _ _)
            · exact hab q' hq2
          rcases H7 p hp hab2 with hmax | ⟨hre, hmin2⟩
          · exact Or.inl hmax
          · exact Or.inr ⟨hre, hmin2⟩
      · simp only [if_neg hts] at H6 ⊢
        rw [Bool.or_eq_false_iff] at H6
        have hev := tierLoop_evolAt c
          (2 * (ps.filter (fun p => decide (p.priority = c))).length) rem ps
        have hexit := tierLoop_exit_clean c
          (2 * (ps.filter (fun p => decide (p.priority = c))).length) rem ps H1 H2 H6.1
        have hble := tierLoop_budget_le c
          (2 * (ps.filter (fun p => decide (p.priority = c))).length) rem ps
          (fun p hp => le_of_lt (H1 p hp))
        have H1' : ∀ p ∈ (tierLoop c
            (2 * (ps.filter (fun p => decide (p.priority = c))).length) rem ps).1,
            0 < p.share := by
          intro p hp
          obtain ⟨a, ha, hr⟩ := forall2MemRight hev p hp
          rw [← hr.1.1.2.2.2.2.2]
          exact H1 a ha
        have H2' : ∀ p ∈ (tierLoop c
            (2 * (ps.filter (fun p => decide (p.priority = c))).length) rem ps).1,
            QInf.finLe p.allocatedSize p.max = true := by
          intro p hp
          obtain ⟨a, ha, hr⟩ := forall2MemRight hev p hp
          exact hr.1.2.2 (H2 a ha)
        have H4' : ∀ p ∈ (tierLoop c
            (2 * (ps.filter (fun p => decide (p.priority = c))).length) rem ps).1,
            p.priority ∈ rest ∨ (∀ q' ∈ rest, q' < p.priority) := by
          intro p hp
          obtain ⟨a, ha, hr⟩ := forall2MemRight hev p hp
          have hpr : p.priority = a.priority := (hr.1.1.2.2.2.2.1).symm
          rcases H4 a ha with hin | hab
          · rcases List.mem_cons.1 hin with hc | hin2
            · exact Or.inr (fun q' hq' => by rw [hpr, hc]; exact hcgt q' hq')
            · exact Or.inl (by rw [hpr]; exact hin2)
          · exact Or.inr (fun q' hq' => by
              rw [hpr]; exact hab q' (List.mem_cons_of_mem _ hq'))
        have H5' : ∀ p ∈ (tierLoop c
            (2 * (ps.filter (fun p => decide (p.priority = c))).length) rem ps).1,
            p.priority ∈ rest → p.allocatedSize = p.min := by
          intro p hp hin
          obtain ⟨a, ha, hr⟩ := forall2MemRight hev p hp
          have hpr : p.priority = a.priority := (hr.1.1.2.2.2.2.1).symm
          have hane : a.priority ≠ c := by
            intro hc
            have : (c : ℚ) ∈ rest := by rw [← hc, ← hpr]; exact hin
            exact lt_irrefl c (hcgt c this)
          have hpa : p = a := hr.2 hane
          rw [hpa]
          exact H5 a ha (List.mem_cons_of_mem _ (hpr ▸ hin))
        have H7' : ∀ p ∈ (tierLoop c
            (2 * (ps.filter (fun p => decide (p.priority = c))).length) rem ps).1,
            (∀ q' ∈ rest, q' < p.priority) →
            QInf.fin p.allocatedSize = p.max ∨
              ((tierLoop c
                (2 * (ps.filter (fun p => decide (p.priority = c))).length) rem ps).2 ≤ eps ∧
                ∀ p2 ∈ (tierLoop c
                  (2 * (ps.filter (fun p => decide (p.priority = c))).length) rem ps).1,
                  p2.priority < p.priority → p2.allocatedSize = p2.min) := by
          intro p hp hab
          obtain ⟨a, ha, hr⟩ := forall2MemRight hev p hp
          have hpr : p.priority = a.priority := (hr.1.1.2.2.2.2.1).symm
          by_cases hac : a.priority = c
          · rcases hexit with hse | hsat
            · refine Or.inr ⟨hse, ?_⟩
              intro p2 hp2 hlt2
              obtain ⟨a2, ha2, hr2⟩ := forall2MemRight hev p2 hp2
              have hpr2 : p2.priority = a2.priority := (hr2.1.1.2.2.2.2.1).symm
              have ha2lt : a2.priority < c := by
                rw [← hpr2, ← hac, ← hpr]
                exact hlt2
              have ha2ne : a2.priority ≠ c := ne_of_lt ha2lt
              have hp2a2 : p2 = a2 := hr2.2 ha2ne
              rcases H4 a2 ha2 with hin | hab2
              · rcases List.mem_cons.1 hin with hc2 | hin2
                · exact absurd hc2 ha2ne
                · rw [hp2a2]
                  exact H5 a2 ha2 (List.mem_cons_of_mem _ hin2)
              · exact absurd (lt_trans (hab2 c (List.mem_cons_self c rest)) ha2lt)
                  (lt_irrefl c)
            · exact Or.inl (hsat p hp (hpr.trans hac))
          · have hpa : p = a := hr.2 hac
            have haab : ∀ q' ∈ c :: rest, q' < a.priority := by
              intro q' hq'
              rcases List.mem_cons.1 hq' with rfl | hq2
              · rcases H4 a ha with hin | hab2
                · rcases List.mem_cons.1 hin with hc2 | hin2
                  · exact absurd hc2 hac
                  · exact absurd (by rw [← hpr] at hin2; exact hab _ hin2)
                      (by rw [hpr]; exact lt_irrefl _)
                · exact hab2 _ (List.mem_cons_self _ _)
              · rw [← hpr]
                exact hab q' hq2
            rcases H7 a ha haab with hmax | ⟨hre, _⟩
            · rw [hpa]
              exact Or.inl hmax
            · exact absurd hre heps
        exact ih _ _ H1' H2' H3.of_cons H4' H5' H6.2 H7'

/-- C4 (amended): assume every region's share is positive, every region
satisfies `min ≤ max`, and no tier of the run ends abnormally (no round
distributes less than `eps` while more than `eps` of budget remains, and the
iteration cap is never the binding exit). Then in the returned allocation,
whenever some region's final size exceeds its minimum, every region of
strictly higher priority is at its maximum. Without these assumptions the
property fails: a zero-share high-priority tier is skipped outright, and an
abnormal early break can abandon a high tier below its maxima while lower
tiers still receive budget. -/
theorem priority_saturation (t : ℚ) (parts : List (String × FlexEntry))
    (hsh : ∀ p ∈ flattenParts parts, 0 < p.share)
    (hmm : ∀ p ∈ flattenParts parts, QInf.finLe p.min p.max = true)
    (hclean : anyTierBroke (prioritiesOf (flattenParts parts))
      (initialRemaining t parts) (initialParts parts) = false) :
    ∀ p ∈ (finalState t parts).1, ∀ q ∈ (finalState t parts).1,
      p.min < p.allocatedSize → p.priority < q.priority →
      QInf.fin q.allocatedSize = q.max := by
  have hprio : ∀ p ∈ initialParts parts, p.priority ∈ prioritiesOf (flattenParts parts) := by
    intro p hp
    unfold initialParts minAllocated at hp
    rw [List.mem_map] at hp
    obtain ⟨q, hq, rfl⟩ := hp
    rw [prioritiesOf_mem]
    exact List.mem_map.2 ⟨q, hq, rfl⟩
  unfold finalState
  apply distributeLoop_saturation
  · intro p hp
    unfold initialParts minAllocated at hp
    rw [List.mem_map] at hp
    obtain ⟨q, hq, rfl⟩ := hp
    exact hsh q hq
  · intro p hp
    unfold initialParts minAllocated at hp
    rw [List.mem_map] at hp
    obtain ⟨q, hq, rfl⟩ := hp
    exact hmm q hq
  · exact prioritiesOf_pairwise _
  · exact fun p hp => Or.inl (hprio p hp)
  · intro p hp _
    unfold initialParts minAllocated at hp
    rw [List.mem_map] at hp
    obtain ⟨q, hq, rfl⟩ := hp
    rfl
  · exact hclean
  · intro p hp hab
    exact absurd (hab _ (hprio p hp)) (lt_irrefl _)

/-- Witness for `priority_saturation`: a bounded priority-1 region and an
unbounded priority-0 region share 20; the lower region grows past its
minimum and the higher one is exactly at its maximum. -/
theorem priority_saturation_witness :
    (∀ p ∈ flattenParts
      [("a", FlexEntry.single { max := some 10, priority := some 1 }),
       ("b", FlexEntry.single {})], 0 < p.share) ∧
    QInf.fin ((finalState 20
      [("a", FlexEntry.single { max := some 10, priority := some 1 }),
       ("b", FlexEntry.single {})]).1.get ⟨0, by with_unfolding_all decide⟩).allocatedSize =
      ((finalState 20
        [("a", FlexEntry.single { max := some 10, priority := some 1 }),
         ("b", FlexEntry.single {})]).1.get ⟨0, by with_unfolding_all decide⟩).max :=
  ⟨by with_unfolding_all decide,
    priority_saturation 20
      [("a", FlexEntry.single { max := some 10, priority := some 1 }),
       ("b", FlexEntry.single {})]
      (by with_unfolding_all decide) (by with_unfolding_all decide)
      (by with_unfolding_all decide)
      ((finalState 20
        [("a", FlexEntry.single { max := some 10, priority := some 1 }),
         ("b", FlexEntry.single {})]).1.get ⟨1, by with_unfolding_all decide⟩)
      (List.get_mem _ _ _)
      ((finalState 20
        [("a", FlexEntry.single { max := some 10, priority := some 1 }),
         ("b", FlexEntry.single {})]).1.get ⟨0, by with_unfolding_all decide⟩)
      (List.get_mem _ _ _)
      (by with_unfolding_all decide) (by with_unfolding_all decide)⟩

/-- C4 counterexample: the budget (50) cannot satisfy the total maxima
(infinite), yet the lower-priority region `b` ends above its minimum while
the higher-priority region `a` (whose share is 0, so its tier is skipped)
stays strictly below its maximum. -/
theorem priority_saturation_cex :
    totalMaxOf (flattenParts
      [("a", FlexEntry.single { max := some 100, priority := some 2, share := some 0 }),
       ("b", FlexEntry.single { priority := some 1 })]) = QInf.inf ∧
    ∃ p ∈ (finalState 50
      [("a", FlexEntry.single { max := some 100, priority := some 2, share := some 0 }),
       ("b", FlexEntry.single { priority := some 1 })]).1,
      ∃ q ∈ (finalState 50
        [("a", FlexEntry.single { max := some 100, priority := some 2, share := some 0 }),
         ("b", FlexEntry.single { priority := some 1 })]).1,
        p.min < p.allocatedSize ∧ p.priority < q.priority ∧
          ¬ QInf.fin q.allocatedSize = q.max := by
  constructor
  · with_unfolding_all decide
  · with_unfolding_all decide

/-! Equal treatment of equal regions. -/

theorem isActive_of_sub_eq {p q : FlatPart}
    (h : p.max.sub p.allocatedSize = q.max.sub q.allocatedSize) :
    isActive p = isActive q := by
  unfold isActive
  cases hp : p.max with
  | inf =>
      cases hq : q.max with
      | inf => rfl
      | fin m' =>
          rw [hp, hq] at h
          exact absurd h (by simp [QInf.sub])
  | fin m =>
      cases hq : q.max with
      | inf =>
          rw [hp, hq] at h
          exact absurd h (by simp [QInf.sub])
      | fin m' =>
          rw [hp, hq] at h
          simp only [QInf.sub, QInf.fin.injEq] at h
          simp only [QInf.finLt, decide_eq_decide]
          constructor <;> intro <;> linarith

theorem incOf_congr {s A : ℚ} {p q : FlatPart} (hsh : p.share = q.share)
    (hsub : p.max.sub p.allocatedSize = q.max.sub q.allocatedSize) :
    incOf s A p = incOf s A q := by
  unfold incOf
  rw [hsh, hsub]

theorem stepOne_twin {pr s A : ℚ} {a b : FlatPart} (h : TwinPart a b) :
    TwinPart (stepOne pr s A a) (stepOne pr s A b) := by
  obtain ⟨hmin, hmax, hpr, hsh, hal⟩ := h
  have hsub : a.max.sub a.allocatedSize = b.max.sub b.allocatedSize := by
    rw [hmax, hal]
  have hact : isActive a = isActive b := isActive_of_sub_eq hsub
  unfold stepOne
  by_cases hc : a.priority = pr ∧ isActive a
  · rw [if_pos hc, if_pos (by rw [← hpr, ← hact]; exact hc)]
    refine ⟨hmin, hmax, hpr, hsh, ?_⟩
    show a.allocatedSize + incOf s A a = b.allocatedSize + incOf s A b
    rw [hal, incOf_congr hsh hsub]
  · rw [if_neg hc, if_neg (by rw [← hpr, ← hact]; exact hc)]
    exact ⟨hmin, hmax, hpr, hsh, hal⟩

theorem tierLoop_map_form (pr : ℚ) : ∀ (fuel : Nat) (s : ℚ) (ps : List FlatPart),
    ∃ f : FlatPart → FlatPart, (tierLoop pr fuel s ps).1 = ps.map f ∧
      ∀ a b, TwinPart a b → TwinPart (f a) (f b) := by
  intro fuel
  induction fuel with
  | zero => intro s ps; exact ⟨id, (List.map_id ps).symm, fun a b h => h⟩
  | succ n ih =>
    intro s ps
    simp only [tierLoop, distributeRound_eq]
    split
    · split
      · exact ⟨id, (List.map_id ps).symm, fun a b h => h⟩
      · split
        · exact ⟨stepOne pr s (activeShareAt pr ps), rfl,
            fun a b h => stepOne_twin h⟩
        · obtain ⟨g, hg, hgt⟩ := ih (s - (ps.map (incContrib pr s (activeShareAt pr ps))).sum)
            (ps.map (stepOne pr s (activeShareAt pr ps)))
          refine ⟨g ∘ stepOne pr s (activeShareAt pr ps), ?_, ?_⟩
          · rw [hg, List.map_map]
          · exact fun a b h => hgt _ _ (stepOne_twin h)
    · exact ⟨id, (List.map_id ps).symm, fun a b h => h⟩

theorem distributeLoop_map_form : ∀ (qs : List ℚ) (rem : ℚ) (ps : List FlatPart),
    ∃ f : FlatPart → FlatPart, (distributeLoop qs rem ps).1 = ps.map f ∧
      ∀ a b, TwinPart a b → TwinPart (f a) (f b) := by
  intro qs
  induction qs with
  | nil => intro rem ps; exact ⟨id, (List.map_id ps).symm, fun a b h => h⟩
  | cons pr rest ih =>
    intro rem ps
    simp only [distributeLoop]
    split
    · exact ⟨id, (List.map_id ps).symm, fun a b h => h⟩
    · split
      · exact ih rem ps
      · obtain ⟨g, hg, hgt⟩ := tierLoop_map_form pr
          (2 * (ps.filter (fun p => decide (p.priority = pr))).length) rem ps
        obtain ⟨g2, hg2, hgt2⟩ := ih
          (tierLoop pr (2 * (ps.filter (fun p => decide (p.priority = pr))).length) rem ps).2
          (tierLoop pr (2 * (ps.filter (fun p => decide (p.priority = pr))).length) rem ps).1
        refine ⟨g2 ∘ g, ?_, fun a b h => hgt2 _ _ (hgt _ _ h)⟩
        rw [hg2, hg, List.map_map]

/-- C6 (amended): within one tier, increases are computed from the round's
entering budget and active share and applied as one simultaneous pointwise
update (the sequential source loop equals a `map`); two regions of the tier
with equal share and equal remaining headroom receive equal increases in a
round; and two regions whose `min`, `max`, `priority` and `share` all agree
end with equal final allocations. (Equal share and equal headroom alone do
not force equal final allocations, since the minimums may differ.) -/
theorem equal_treatment :
    (∀ (pr s A : ℚ) (ps : List FlatPart),
      distributeRound pr s A ps =
        (ps.map (stepOne pr s A), (ps.map (incContrib pr s A)).sum)) ∧
    (∀ (pr s A : ℚ) (p q : FlatPart), p.priority = pr → q.priority = pr →
      p.share = q.share →
      p.max.sub p.allocatedSize = q.max.sub q.allocatedSize →
      (stepOne pr s A p).allocatedSize - p.allocatedSize =
        (stepOne pr s A q).allocatedSize - q.allocatedSize) ∧
    (∀ (t : ℚ) (parts : List (String × FlexEntry)) (i j : Nat)
      (hi : i < (flattenParts parts).length) (hj : j < (flattenParts parts).length),
      ((flattenParts parts).get ⟨i, hi⟩).min = ((flattenParts parts).get ⟨j, hj⟩).min →
      ((flattenParts parts).get ⟨i, hi⟩).max = ((flattenParts parts).get ⟨j, hj⟩).max →
      ((flattenParts parts).get ⟨i, hi⟩).priority =
        ((flattenParts parts).get ⟨j, hj⟩).priority →
      ((flattenParts parts).get ⟨i, hi⟩).share = ((flattenParts parts).get ⟨j, hj⟩).share →
      ∀ (hi2 : i < (finalState t parts).1.length) (hj2 : j < (finalState t parts).1.length),
        ((finalState t parts).1.get ⟨i, hi2⟩).allocatedSize =
          ((finalState t parts).1.get ⟨j, hj2⟩).allocatedSize) := by
  refine ⟨distributeRound_eq, ?_, ?_⟩
  · intro pr s A p q hppr hqpr hsh hsub
    have hact : isActive p = isActive q := isActive_of_sub_eq hsub
    unfold stepOne
    by_cases hc : p.priority = pr ∧ isActive p
    · rw [if_pos hc, if_pos (by rw [hqpr, ← hact]; exact ⟨rfl, hc.2⟩)]
      show p.allocatedSize + incOf s A p - p.allocatedSize =
        q.allocatedSize + incOf s A q - q.allocatedSize
      rw [incOf_congr hsh hsub]
      ring
    · rw [if_neg hc, if_neg (by
        intro hcq
        exact hc ⟨hppr, hact ▸ hcq.2⟩)]
      ring
  · intro t parts i j hi hj h1 h2 h3 h4 hi2 hj2
    obtain ⟨F, hF, hFt⟩ := distributeLoop_map_form
      (prioritiesOf (flattenParts parts)) (initialRemaining t parts) (initialParts parts)
    have hfin : (finalState t parts).1 =
        (flattenParts parts).map
          (fun p => F { p with allocatedSize := p.min }) := by
      show (distributeLoop _ _ _).1 = _
      rw [hF]
      unfold initialParts minAllocated
      rw [List.map_map]
      rfl
    have htw : TwinPart
        (F { (flattenParts parts).get ⟨i, hi⟩ with
          allocatedSize := ((flattenParts parts).get ⟨i, hi⟩).min })
        (F { (flattenParts parts).get ⟨j, hj⟩ with
          allocatedSize := ((flattenParts parts).get ⟨j, hj⟩).min }) :=
      hFt _ _ ⟨h1, h2, h3, h4, h1⟩
    have hgi := List.get_of_eq hfin ⟨i, hi2⟩
    have hgj := List.get_of_eq hfin ⟨j, hj2⟩
    rw [hgi, hgj, List.get_map, List.get_map]
    exact htw.2.2.2.2

/-- Witness for `equal_treatment` at a concrete input: the two identical
all-defaults regions of `distribute(100, «a», «b»)` end with equal final
allocations. -/
theorem equal_treatment_witness :
    ((flattenParts [("a", FlexEntry.single {}), ("b", FlexEntry.single {})]).get
        ⟨0, by with_unfolding_all decide⟩).share =
      ((flattenParts [("a", FlexEntry.single {}), ("b", FlexEntry.single {})]).get
        ⟨1, by with_unfolding_all decide⟩).share ∧
    ((finalState 100 [("a", FlexEntry.single {}), ("b", FlexEntry.single {})]).1.get
        ⟨0, by with_unfolding_all decide⟩).allocatedSize =
      ((finalState 100 [("a", FlexEntry.single {}), ("b", FlexEntry.single {})]).1.get
        ⟨1, by with_unfolding_all decide⟩).allocatedSize :=
  ⟨by with_unfolding_all decide,
    equal_treatment.2.2 100 [("a", FlexEntry.single {}), ("b", FlexEntry.single {})] 0 1
      (by with_unfolding_all decide) (by with_unfolding_all decide)
      (by with_unfolding_all decide) (by with_unfolding_all decide)
      (by with_unfolding_all decide) (by with_unfolding_all decide)
      (by with_unfolding_all decide) (by with_unfolding_all decide)⟩

/-! Width independence. -/

theorem enumFrom_map_erase : ∀ (n : Nat) (ps : List IFlexBoxPart),
    List.enumFrom n (ps.map eraseWidthPart) =
      (List.enumFrom n ps).map (fun ip => (ip.1, eraseWidthPart ip.2)) := by
  intro n ps
  induction ps generalizing n with
  | nil => rfl
  | cons p rest ih => simp [List.enumFrom, ih]

theorem flattenEntry_erase (k : String) (e : FlexEntry) :
    flattenEntry k (eraseWidthEntry e) = flattenEntry k e := by
  cases e with
  | single p => rfl
  | many ps =>
      show (List.enum (ps.map eraseWidthPart)).map _ = _
      rw [List.enum, enumFrom_map_erase, List.map_map]
      rfl

theorem flattenParts_erase : ∀ parts : List (String × FlexEntry),
    flattenParts (eraseWidth parts) = flattenParts parts := by
  intro parts
  induction parts with
  | nil => rfl
  | cons ke rest ih =>
      show flattenEntry ke.1 (eraseWidthEntry ke.2) ++ flattenParts (eraseWidth rest) =
        flattenEntry ke.1 ke.2 ++ flattenParts rest
      rw [flattenEntry_erase, ih]

theorem buildResult_erase : ∀ (ps qs : List (String × FlexEntry)),
    eraseWidth ps = eraseWidth qs → ∀ fps : List FlatPart,
      buildResult ps fps = buildResult qs fps := by
  intro ps
  induction ps with
  | nil =>
      intro qs h fps
      rw [show eraseWidth [] = [] from rfl] at h
      cases qs with
      | nil => rfl
      | cons b qs => exact absurd h.symm (List.cons_ne_nil _ _)
  | cons a ps ih =>
      intro qs h fps
      cases qs with
      | nil => exact absurd h (List.cons_ne_nil _ _)
      | cons b qs =>
          simp only [eraseWidth, List.map_cons, List.cons.injEq, Prod.mk.injEq] at h
          obtain ⟨⟨hk, he⟩, htl⟩ := h
          have ht : buildResult ps fps = buildResult qs fps := by
            apply ih
            unfold eraseWidth
            exact htl
          obtain ⟨k1, e1⟩ := a
          obtain ⟨k2, e2⟩ := b
          simp only at hk he
          subst hk
          cases e1 with
          | single p1 =>
              cases e2 with
              | single p2 => rw [buildResult_cons_single, buildResult_cons_single, ht]
              | many l2 => exact absurd he (by simp [eraseWidthEntry])
          | many l1 =>
              cases e2 with
              | single p2 => exact absurd he (by simp [eraseWidthEntry])
              | many l2 => rw [buildResult_cons_many, buildResult_cons_many, ht]

/-- C10: the result of `distributeFlexBoxLayout` (including whether it is
`null`) does not depend on the `width` fields of the input parts: two inputs
that agree after erasing every `width` produce identical results, because the
algorithm never reads `width`. -/
theorem width_independent (t : ℚ) (ps qs : List (String × FlexEntry))
    (h : eraseWidth ps = eraseWidth qs) :
    distributeFlexBoxLayout t ps = distributeFlexBoxLayout t qs := by
  have hflat : flattenParts ps = flattenParts qs := by
    rw [← flattenParts_erase ps, ← flattenParts_erase qs, h]
  simp only [distributeFlexBoxLayout, finalState, initialParts, initialRemaining, hflat,
    buildResult_erase ps qs h]

/-- Witness for `width_independent`: two concrete inputs differing only in a
`width` field produce the same result. -/
theorem width_independent_witness :
    eraseWidth [("a", FlexEntry.single { width := some 7 })] =
      eraseWidth [("a", FlexEntry.single {})] ∧
    distributeFlexBoxLayout 3 [("a", FlexEntry.single { width := some 7 })] =
      distributeFlexBoxLayout 3 [("a", FlexEntry.single {})] :=
  ⟨by with_unfolding_all decide,
    width_independent 3 [("a", FlexEntry.single { width := some 7 })]
      [("a", FlexEntry.single {})] (by with_unfolding_all decide)⟩

end FlexBox
